import Mathlib

/-!
# IMA ADPCM codec of platansense: embedding and properties

Two source instances of the codec are embedded:

* `Mpy`  : `src/micropython/mpyMods/mpy1.25.0/adpcm/adpcm.c`
* `Cmod` : `src/micropython/cmodules/adpcm/modadpcm.c`

Conventions of the embedding.

* C `int` values are `Int`.  With a valid adaptation state every intermediate
  value of the loops stays far inside 32 bits (`|pcm[i] - valprev| ≤ 65535`,
  `vpdiff ≤ 15 * 32767 / 8`), so no wrap-around is modelled for `int`.
  The narrowing store `pcm[i] = valprev` into an `int16_t` is modelled by
  `toInt16`, the narrowing to `uint8_t` by `% 256`.
* The 4-bit code `delta` only takes the values `0 .. 15`; it is a `Nat` with the
  bit operators of the source.
* `step >> k` is the arithmetic shift `>>>` of `Int`; `step` is never negative,
  and there the shift is the division by `2^k` (`shr_eq_div`).
* `(pcm, nsamples)` of the encoder is the list of the `nsamples` samples read.
* `*adpcm++ = b` appends `b` to the list of stored bytes, `pcm[i] = v` (for
  `i = 0, 1, 2, ...`) appends `v` to the list of stored samples; the binding layer
  lays the stored values over the destination buffer with `store_at`.
* A read `adpcm[i >> 1]` past the end of the packed buffer is undefined in C; the
  decoder returns `none` there.
* Buffer lengths (`size_t len`, `int nsamples`) are `Nat`; on the target they are
  far below `2^31`, so the conversions between `size_t` and `int` keep them.
-/

namespace Adpcm

/-- Conversion of an `int` to `int16_t` (two's complement wrap). -/
def toInt16 (v : Int) : Int := (v + 32768) % 65536 - 32768

/-- The adaptation state `adpcm_state_t`. -/
structure adpcm_state_t where
  valprev : Int
  index : Int
deriving DecidableEq, Repr

/-- A state is valid when `valprev` is a signed 16-bit value and `index` is an
index of the step table. -/
def valid_state (s : adpcm_state_t) : Prop :=
  (-32768 ≤ s.valprev ∧ s.valprev ≤ 32767) ∧ (0 ≤ s.index ∧ s.index ≤ 88)

instance (s : adpcm_state_t) : Decidable (valid_state s) := by
  unfold valid_state; infer_instance

/-- A sample is a signed 16-bit value. -/
def is_int16 (v : Int) : Prop := -32768 ≤ v ∧ v ≤ 32767

instance (v : Int) : Decidable (is_int16 v) := by
  unfold is_int16; infer_instance

/-- Sequential stores of `vals` into `buf` starting at offset `off`
(`buf[off] = v0; buf[off+1] = v1; ...`). -/
def store_at {α : Type} : List α → Nat → List α → List α
  | buf, _, [] => buf
  | buf, off, v :: vs => store_at (buf.set off v) (off + 1) vs

/-- View of a byte buffer as `int16_t` samples, little endian
(`(const int16_t *)pcm_buf.buf`); a trailing single byte is not a sample. -/
def pcm_of_bytes : List Nat → List Int
  | lo :: hi :: rest => toInt16 ((lo : Int) + 256 * (hi : Int)) :: pcm_of_bytes rest
  | _ => []

/-- Bytes of an array of `int16_t` samples, little endian (`(uint8_t *)pcm`). -/
def bytes_of_pcm : List Int → List Nat
  | [] => []
  | v :: rest => (v % 256).toNat :: ((v / 256) % 256).toNat :: bytes_of_pcm rest

/-- Outcome of the allocating bindings: the bytes object returned, or the
`ValueError` raised by `mp_raise_ValueError`. -/
inductive py_result where
  | bytes (b : List Nat)
  | ValueError
deriving DecidableEq, Repr

/-! ## `mpyMods/mpy1.25.0/adpcm/adpcm.c` -/

namespace Mpy

/-- `static const int step_table[89]` (adpcm.c:8). -/
def step_table : List Int := [
    7, 8, 9, 10, 11, 12, 13, 14, 16, 17,
    19, 21, 23, 25, 28, 31, 34, 37, 41, 45,
    50, 55, 60, 66, 73, 80, 88, 97, 107, 118,
    130, 143, 157, 173, 190, 209, 230, 253, 279, 307,
    337, 371, 408, 449, 494, 544, 598, 658, 724, 796,
    876, 963, 1060, 1166, 1282, 1411, 1552, 1707, 1878, 2066,
    2272, 2499, 2749, 3024, 3327, 3660, 4026, 4428, 4871, 5358,
    5894, 6484, 7132, 7845, 8630, 9493, 10442, 11487, 12635, 13899,
    15289, 16818, 18500, 20350, 22385, 24623, 27086, 29794, 32767]

/-- `static const int index_table[16]` (adpcm.c:20). -/
def index_table : List Int := [
    -1, -1, -1, -1, 2, 4, 6, 8,
    -1, -1, -1, -1, 2, 4, 6, 8]

/-- The read `step_table[index]`.  Outside `0 .. 88` the C read is undefined;
the value 0 stands for it here.  The properties that depend on the value read
are stated for valid states, where the read is inside the table. -/
def step_at (index : Int) : Int :=
  if 0 ≤ index then step_table.getD index.toNat 0 else 0

/-- The read `index_table[k]`. -/
def index_adj (k : Nat) : Int := index_table.getD k 0

/-- The reconstructed difference `vpdiff` for the current `step` and the code
`delta` (adpcm.c:58-61 in the encoder, adpcm.c:96-99 in the decoder). -/
def vpdiff_of (step : Int) (delta : Nat) : Int :=
  let vpdiff0 : Int := step >>> 3
  let vpdiff1 : Int := if delta &&& 4 ≠ 0 then vpdiff0 + step else vpdiff0
  let vpdiff2 : Int := if delta &&& 2 ≠ 0 then vpdiff1 + (step >>> 1) else vpdiff1
  let vpdiff3 : Int := if delta &&& 1 ≠ 0 then vpdiff2 + (step >>> 2) else vpdiff2
  vpdiff3

/-- The clamp of `valprev` (adpcm.c:63-64 and adpcm.c:101-102). -/
def clamp16 (valprev : Int) : Int :=
  if valprev < -32768 then -32768 else if valprev > 32767 then 32767 else valprev

/-- The clamp of `index` (adpcm.c:67 and adpcm.c:105). -/
def clamp_index (index : Int) : Int :=
  if index < 0 then 0 else if index > 88 then 88 else index

/-- Local variables of `adpcm_encode` (adpcm.c:36-41), with `adpcm` the
bytes stored so far through `*adpcm++`. -/
structure enc_locals where
  valprev : Int
  index : Int
  step : Int
  hi_nibble : Nat
  toggle : Nat
  adpcm : List Nat
deriving DecidableEq, Repr

/-- The 4-bit code `delta` chosen by one iteration (adpcm.c:44-55) for sample
`s` when the locals are `valprev` and `step`. -/
def enc_delta (valprev step s : Int) : Nat :=
  let diff0 : Int := s - valprev
  let sign : Nat := if diff0 < 0 then 8 else 0
  let diff1 : Int := if sign ≠ 0 then -diff0 else diff0
  let delta0 : Nat := 0
  let temp_step0 : Int := step
  let delta1 : Nat := if diff1 ≥ temp_step0 then delta0 ||| 4 else delta0
  let diff2 : Int := if diff1 ≥ temp_step0 then diff1 - temp_step0 else diff1
  let temp_step1 : Int := temp_step0 >>> 1
  let delta2 : Nat := if diff2 ≥ temp_step1 then delta1 ||| 2 else delta1
  let diff3 : Int := if diff2 ≥ temp_step1 then diff2 - temp_step1 else diff2
  let temp_step2 : Int := temp_step1 >>> 1
  let delta3 : Nat := if diff3 ≥ temp_step2 then delta2 ||| 1 else delta2
  delta3 ||| sign

/-- One iteration of the loop of `adpcm_encode` (adpcm.c:43-78) on the sample
`s = pcm[i]`. -/
def enc_body (L : enc_locals) (s : Int) : enc_locals :=
  let diff0 : Int := s - L.valprev
  let sign : Nat := if diff0 < 0 then 8 else 0
  let delta : Nat := enc_delta L.valprev L.step s
  -- reconstruct
  let vpdiff : Int := vpdiff_of L.step delta
  let valprev1 : Int := if sign ≠ 0 then L.valprev - vpdiff else L.valprev + vpdiff
  let valprev2 : Int := clamp16 valprev1
  let index1 : Int := L.index + index_adj (delta &&& 0x0F)
  let index2 : Int := clamp_index index1
  let step1 : Int := step_at index2
  -- pack nibbles
  if L.toggle = 0 then
    { valprev := valprev2, index := index2, step := step1,
      hi_nibble := ((delta <<< 4) &&& 0xF0) % 256, toggle := 1, adpcm := L.adpcm }
  else
    { valprev := valprev2, index := index2, step := step1,
      hi_nibble := L.hi_nibble, toggle := 0,
      adpcm := L.adpcm ++ [(L.hi_nibble ||| (delta &&& 0x0F)) % 256] }

/-- The loop `for (i = 0; i < nsamples; ++i)` of `adpcm_encode` over the samples
`pcm[0 .. nsamples-1]`. -/
def enc_loop : List Int → enc_locals → enc_locals
  | [], L => L
  | s :: rest, L => enc_loop rest (enc_body L s)

/-- The locals of `adpcm_encode` before the loop (adpcm.c:36-41). -/
def enc_init (state : adpcm_state_t) : enc_locals :=
  { valprev := state.valprev, index := state.index, step := step_at state.index,
    hi_nibble := 0, toggle := 0, adpcm := [] }

/-- `adpcm_encode` (adpcm.c:35-82): the bytes stored through `adpcm`, in order,
and the state written back. -/
def adpcm_encode (pcm : List Int) (state : adpcm_state_t) : List Nat × adpcm_state_t :=
  let L := enc_loop pcm (enc_init state)
  (L.adpcm, { valprev := L.valprev, index := L.index })

/-- Local variables of `adpcm_decode` (adpcm.c:86-88), with `pcm` the samples
stored so far. -/
structure dec_locals where
  valprev : Int
  index : Int
  step : Int
  pcm : List Int
deriving DecidableEq, Repr

/-- The code read for position `i` (adpcm.c:91-92), `none` when byte `i >> 1`
lies outside the packed buffer. -/
def dec_nibble (adpcm : List Nat) (i : Nat) : Option Nat :=
  match adpcm[i >>> 1]? with
  | none => none
  | some packed => some (if i &&& 1 ≠ 0 then packed &&& 0x0F else packed >>> 4)

/-- Lines adpcm.c:93-108 of the loop of `adpcm_decode` for the code `delta0`
read at this position. -/
def dec_apply (L : dec_locals) (delta0 : Nat) : dec_locals :=
  let sign : Nat := delta0 &&& 8
  let delta : Nat := delta0 &&& 7
  let vpdiff : Int := vpdiff_of L.step delta
  let valprev1 : Int := if sign ≠ 0 then L.valprev - vpdiff else L.valprev + vpdiff
  let valprev2 : Int := clamp16 valprev1
  let index1 : Int := L.index + index_adj (delta ||| sign)
  let index2 : Int := clamp_index index1
  let step1 : Int := step_at index2
  { valprev := valprev2, index := index2, step := step1,
    pcm := L.pcm ++ [toInt16 valprev2] }

/-- One iteration of the loop of `adpcm_decode` (adpcm.c:90-109) at position `i`. -/
def dec_body (adpcm : List Nat) (i : Nat) (L : dec_locals) : Option dec_locals :=
  match dec_nibble adpcm i with
  | none => none
  | some delta0 => some (dec_apply L delta0)

/-- The loop `for (i = ..; i < nsamples; ++i)` of `adpcm_decode`: `n` iterations
are left and the counter is `i`. -/
def dec_loop (adpcm : List Nat) : Nat → Nat → dec_locals → Option dec_locals
  | 0, _, L => some L
  | n + 1, i, L =>
    match dec_body adpcm i L with
    | none => none
    | some L1 => dec_loop adpcm n (i + 1) L1

/-- The locals of `adpcm_decode` before the loop (adpcm.c:86-88). -/
def dec_init (state : adpcm_state_t) : dec_locals :=
  { valprev := state.valprev, index := state.index, step := step_at state.index, pcm := [] }

/-- `adpcm_decode` (adpcm.c:85-113): the samples stored into `pcm`, in order, and
the state written back. -/
def adpcm_decode (adpcm : List Nat) (nsamples : Nat) (state : adpcm_state_t) :
    Option (List Int × adpcm_state_t) :=
  match dec_loop adpcm nsamples 0 (dec_init state) with
  | none => none
  | some L => some (L.pcm, { valprev := L.valprev, index := L.index })

/-- `py_adpcm_encode` (adpcm.c:121-132) on the bytes of the PCM buffer.
`m_new(uint8_t, nsamples / 2)` is a fresh buffer of `nsamples / 2` bytes and
`mp_obj_new_bytes(out, nsamples / 2)` copies its first `nsamples / 2` bytes. -/
def py_adpcm_encode (pcm_buf : List Nat) : py_result :=
  if pcm_buf.length &&& 1 ≠ 0 then py_result.ValueError
  else
    let nsamples : Nat := pcm_buf.length / 2
    let out : List Nat := List.replicate (nsamples / 2) 0
    let st : adpcm_state_t := { valprev := 0, index := 0 }
    let r := adpcm_encode ((pcm_of_bytes pcm_buf).take nsamples) st
    py_result.bytes ((store_at out 0 r.1).take (nsamples / 2))

/-- `py_adpcm_decode` (adpcm.c:135-143) on the bytes of the ADPCM buffer; `none`
only if the engine reads outside the buffer. -/
def py_adpcm_decode (adpcm_buf : List Nat) : Option (List Nat) :=
  let nsamples : Nat := adpcm_buf.length * 2
  let pcm : List Int := List.replicate nsamples 0
  let st : adpcm_state_t := { valprev := 0, index := 0 }
  match adpcm_decode adpcm_buf nsamples st with
  | none => none
  | some r => some ((bytes_of_pcm (store_at pcm 0 r.1)).take (nsamples * 2))

/-- `py_adpcm_encode_into` (adpcm.c:149-166): the small int returned and the
destination buffer afterwards. -/
def py_adpcm_encode_into (pcm_buf out_buf : List Nat) : Int × List Nat :=
  if pcm_buf.length &&& 1 ≠ 0 then (-1, out_buf)
  else
    let nsamples : Nat := pcm_buf.length / 2
    let needed_bytes : Nat := nsamples / 2
    if out_buf.length < needed_bytes then (-1, out_buf)
    else
      let st : adpcm_state_t := { valprev := 0, index := 0 }
      let r := adpcm_encode ((pcm_of_bytes pcm_buf).take nsamples) st
      ((needed_bytes : Int), store_at out_buf 0 r.1)

/-- `py_adpcm_decode_into` (adpcm.c:169-183): the small int returned and the
destination buffer afterwards; the `int16_t` stores through
`(int16_t *)out_buf.buf` are the byte stores of `bytes_of_pcm`.  `none` only if
the engine reads outside the ADPCM buffer. -/
def py_adpcm_decode_into (adpcm_buf out_buf : List Nat) : Option (Int × List Nat) :=
  let nsamples : Nat := adpcm_buf.length * 2
  let needed_bytes : Nat := nsamples * 2
  if out_buf.length < needed_bytes then some (-1, out_buf)
  else
    let st : adpcm_state_t := { valprev := 0, index := 0 }
    match adpcm_decode adpcm_buf nsamples st with
    | none => none
    | some r => some ((needed_bytes : Int), store_at out_buf 0 (bytes_of_pcm r.1))

end Mpy

/-! ## `cmodules/adpcm/modadpcm.c` -/

namespace Cmod

/-- `static const int step_table[89]` (modadpcm.c:7). -/
def step_table : List Int := [
    7, 8, 9, 10, 11, 12, 13, 14, 16, 17,
    19, 21, 23, 25, 28, 31, 34, 37, 41, 45,
    50, 55, 60, 66, 73, 80, 88, 97, 107, 118,
    130, 143, 157, 173, 190, 209, 230, 253, 279, 307,
    337, 371, 408, 449, 494, 544, 598, 658, 724, 796,
    876, 963, 1060, 1166, 1282, 1411, 1552, 1707, 1878, 2066,
    2272, 2499, 2749, 3024, 3327, 3660, 4026, 4428, 4871, 5358,
    5894, 6484, 7132, 7845, 8630, 9493, 10442, 11487, 12635, 13899,
    15289, 16818, 18500, 20350, 22385, 24623, 27086, 29794, 32767]

/-- `static const int index_table[16]` (modadpcm.c:19). -/
def index_table : List Int := [
    -1, -1, -1, -1, 2, 4, 6, 8,
    -1, -1, -1, -1, 2, 4, 6, 8]

/-- The read `step_table[index]`; 0 stands for the undefined read outside
`0 .. 88`. -/
def step_at (index : Int) : Int :=
  if 0 ≤ index then step_table.getD index.toNat 0 else 0

/-- The read `index_table[k]`. -/
def index_adj (k : Nat) : Int := index_table.getD k 0

/-- The reconstructed difference `vpdiff` for the current `step` and the code
`delta` (modadpcm.c:80-83 in the encoder, modadpcm.c:120-123 in the decoder). -/
def vpdiff_of (step : Int) (delta : Nat) : Int :=
  let vpdiff0 : Int := step >>> 3
  let vpdiff1 : Int := if delta &&& 4 ≠ 0 then vpdiff0 + step else vpdiff0
  let vpdiff2 : Int := if delta &&& 2 ≠ 0 then vpdiff1 + (step >>> 1) else vpdiff1
  let vpdiff3 : Int := if delta &&& 1 ≠ 0 then vpdiff2 + (step >>> 2) else vpdiff2
  vpdiff3

/-- The clamp of `valprev` (modadpcm.c:88-89 and modadpcm.c:128-129). -/
def clamp16 (valprev : Int) : Int :=
  if valprev > 32767 then 32767 else if valprev < -32768 then -32768 else valprev

/-- The clamp of `index` (modadpcm.c:92-93 and modadpcm.c:132-133). -/
def clamp_index (index : Int) : Int :=
  if index < 0 then 0 else if index > 88 then 88 else index

/-- Local variables of `adpcm_encode` (modadpcm.c:58-62), with `adpcm` the bytes
stored so far through `*adpcm++`. -/
structure enc_locals where
  valprev : Int
  index : Int
  step : Int
  out : Nat
  buffer : Nat
  adpcm : List Nat
deriving DecidableEq, Repr

/-- The 4-bit code `delta` chosen by one iteration (modadpcm.c:65-78). -/
def enc_delta (valprev step s : Int) : Nat :=
  let diff0 : Int := s - valprev
  let sign : Nat := if diff0 < 0 then 8 else 0
  let diff1 : Int := if sign ≠ 0 then -diff0 else diff0
  let delta0 : Nat := 0
  let tempstep0 : Int := step
  let delta1 : Nat := if diff1 ≥ tempstep0 then delta0 ||| 4 else delta0
  let diff2 : Int := if diff1 ≥ tempstep0 then diff1 - tempstep0 else diff1
  let tempstep1 : Int := tempstep0 >>> 1
  let delta2 : Nat := if diff2 ≥ tempstep1 then delta1 ||| 2 else delta1
  let diff3 : Int := if diff2 ≥ tempstep1 then diff2 - tempstep1 else diff2
  let tempstep2 : Int := tempstep1 >>> 1
  let delta3 : Nat := if diff3 ≥ tempstep2 then delta2 ||| 1 else delta2
  delta3 ||| sign

/-- One iteration of the loop of `adpcm_encode` (modadpcm.c:64-103) on the
sample `s = pcm[i]`. -/
def enc_body (L : enc_locals) (s : Int) : enc_locals :=
  let diff0 : Int := s - L.valprev
  let sign : Nat := if diff0 < 0 then 8 else 0
  let delta : Nat := enc_delta L.valprev L.step s
  let vpdiff : Int := vpdiff_of L.step delta
  let valprev1 : Int := if sign ≠ 0 then L.valprev - vpdiff else L.valprev + vpdiff
  let valprev2 : Int := clamp16 valprev1
  let index1 : Int := L.index + index_adj delta
  let index2 : Int := clamp_index index1
  let step1 : Int := step_at index2
  if L.buffer ≠ 0 then
    { valprev := valprev2, index := index2, step := step1,
      out := L.out, buffer := if L.buffer ≠ 0 then 0 else 1,
      adpcm := L.adpcm ++ [(L.out ||| (delta &&& 0x0F)) % 256] }
  else
    { valprev := valprev2, index := index2, step := step1,
      out := ((delta <<< 4) &&& 0xF0) % 256, buffer := if L.buffer ≠ 0 then 0 else 1,
      adpcm := L.adpcm }

/-- The loop `for (i = 0; i < nsamples; i++)` of `adpcm_encode`. -/
def enc_loop : List Int → enc_locals → enc_locals
  | [], L => L
  | s :: rest, L => enc_loop rest (enc_body L s)

/-- The locals of `adpcm_encode` before the loop (modadpcm.c:58-62). -/
def enc_init (state : adpcm_state_t) : enc_locals :=
  { valprev := state.valprev, index := state.index, step := step_at state.index,
    out := 0, buffer := 0, adpcm := [] }

/-- `adpcm_encode` (modadpcm.c:57-107): the bytes stored through `adpcm`, in
order, and the state written back. -/
def adpcm_encode (pcm : List Int) (state : adpcm_state_t) : List Nat × adpcm_state_t :=
  let L := enc_loop pcm (enc_init state)
  (L.adpcm, { valprev := L.valprev, index := L.index })

/-- Local variables of `adpcm_decode` (modadpcm.c:111-113), with `pcm` the
samples stored so far. -/
structure dec_locals where
  valprev : Int
  index : Int
  step : Int
  pcm : List Int
deriving DecidableEq, Repr

/-- The code read for position `i` (modadpcm.c:116), `none` when byte `i >> 1`
lies outside the packed buffer. -/
def dec_nibble (adpcm : List Nat) (i : Nat) : Option Nat :=
  match adpcm[i >>> 1]? with
  | none => none
  | some packed => some (if i &&& 1 ≠ 0 then packed &&& 0x0F else packed >>> 4)

/-- Lines modadpcm.c:117-137 of the loop of `adpcm_decode` for the code `delta0`
read at this position. -/
def dec_apply (L : dec_locals) (delta0 : Nat) : dec_locals :=
  let sign : Nat := delta0 &&& 8
  let delta : Nat := delta0 &&& 7
  let vpdiff : Int := vpdiff_of L.step delta
  let valprev1 : Int := if sign ≠ 0 then L.valprev - vpdiff else L.valprev + vpdiff
  let valprev2 : Int := clamp16 valprev1
  let index1 : Int := L.index + index_adj (delta ||| sign)
  let index2 : Int := clamp_index index1
  let step1 : Int := step_at index2
  { valprev := valprev2, index := index2, step := step1,
    pcm := L.pcm ++ [toInt16 valprev2] }

/-- One iteration of the loop of `adpcm_decode` (modadpcm.c:115-138). -/
def dec_body (adpcm : List Nat) (i : Nat) (L : dec_locals) : Option dec_locals :=
  match dec_nibble adpcm i with
  | none => none
  | some delta0 => some (dec_apply L delta0)

/-- The loop of `adpcm_decode`: `n` iterations are left and the counter is `i`. -/
def dec_loop (adpcm : List Nat) : Nat → Nat → dec_locals → Option dec_locals
  | 0, _, L => some L
  | n + 1, i, L =>
    match dec_body adpcm i L with
    | none => none
    | some L1 => dec_loop adpcm n (i + 1) L1

/-- The locals of `adpcm_decode` before the loop (modadpcm.c:111-113). -/
def dec_init (state : adpcm_state_t) : dec_locals :=
  { valprev := state.valprev, index := state.index, step := step_at state.index, pcm := [] }

/-- `adpcm_decode` (modadpcm.c:110-142): the samples stored into `pcm`, in order,
and the state written back. -/
def adpcm_decode (adpcm : List Nat) (nsamples : Nat) (state : adpcm_state_t) :
    Option (List Int × adpcm_state_t) :=
  match dec_loop adpcm nsamples 0 (dec_init state) with
  | none => none
  | some L => some (L.pcm, { valprev := L.valprev, index := L.index })

/-- `mod_adpcm_encode` (modadpcm.c:24-38) on the bytes of the PCM buffer. -/
def mod_adpcm_encode (pcm_buf : List Nat) : py_result :=
  if pcm_buf.length % 2 ≠ 0 then py_result.ValueError
  else
    let nsamples : Nat := pcm_buf.length / 2
    let out : List Nat := List.replicate (nsamples / 2) 0
    let state : adpcm_state_t := { valprev := 0, index := 0 }
    let r := adpcm_encode ((pcm_of_bytes pcm_buf).take nsamples) state
    py_result.bytes ((store_at out 0 r.1).take (nsamples / 2))

/-- `mod_adpcm_decode` (modadpcm.c:42-52) on the bytes of the ADPCM buffer;
`none` only if the engine reads outside the buffer. -/
def mod_adpcm_decode (adpcm_buf : List Nat) : Option (List Nat) :=
  let nsamples : Nat := adpcm_buf.length * 2
  let pcm_out : List Int := List.replicate nsamples 0
  let state : adpcm_state_t := { valprev := 0, index := 0 }
  match adpcm_decode adpcm_buf nsamples state with
  | none => none
  | some r => some ((bytes_of_pcm (store_at pcm_out 0 r.1)).take (nsamples * 2))

end Cmod

/-! ## Notions derived from the loops, used to state the properties -/

/-- Two codes per byte, the first in bits 4-7 and the second in bits 0-3; a last
single code gives no byte. -/
def pack_pairs : List Nat → List Nat
  | a :: b :: rest => (a * 16 + b) :: pack_pairs rest
  | _ => []

namespace Mpy

/-- The codes `delta` chosen by the iterations of the loop of `adpcm_encode`, in
order, when the loop is entered with locals `L`. -/
def enc_codes : List Int → enc_locals → List Nat
  | [], _ => []
  | s :: rest, L => enc_delta L.valprev L.step s :: enc_codes rest (enc_body L s)

/-- The value of `valprev` at the end of each iteration of the loop of
`adpcm_encode`, in order. -/
def enc_trace : List Int → enc_locals → List Int
  | [], _ => []
  | s :: rest, L => (enc_body L s).valprev :: enc_trace rest (enc_body L s)

/-- The bytes stored by the packing part of the loop body (adpcm.c:71-77) for a
sequence of codes, entered with `toggle` and `hi_nibble`. -/
def pack_stream : Nat → Nat → List Nat → List Nat
  | _, _, [] => []
  | toggle, hi_nibble, c :: cs =>
    if toggle = 0 then pack_stream 1 (((c <<< 4) &&& 0xF0) % 256) cs
    else ((hi_nibble ||| (c &&& 0x0F)) % 256) :: pack_stream 0 hi_nibble cs

/-- The read `step_table[index]` with its bounds checked: `none` when `index`
is outside `0 .. 88`. -/
def step_read (index : Int) : Option Int :=
  if 0 ≤ index then step_table[index.toNat]? else none

/-- The read `index_table[k]` with its bounds checked: `none` when `k` is
outside `0 .. 15`. -/
def index_read (k : Nat) : Option Int := index_table[k]?

/-- One iteration of the loop of `adpcm_decode` (adpcm.c:90-109) at position `i`
in which each of the three array reads (`adpcm[i >> 1]`, `index_table[..]`,
`step_table[index]`) is checked: `none` as soon as one of them is out of range. -/
def dec_body_checked (adpcm : List Nat) (i : Nat) (L : dec_locals) : Option dec_locals :=
  match adpcm[i >>> 1]? with
  | none => none
  | some packed =>
    let delta0 : Nat := if i &&& 1 ≠ 0 then packed &&& 0x0F else packed >>> 4
    let sign : Nat := delta0 &&& 8
    let delta : Nat := delta0 &&& 7
    let vpdiff : Int := vpdiff_of L.step delta
    let valprev1 : Int := if sign ≠ 0 then L.valprev - vpdiff else L.valprev + vpdiff
    let valprev2 : Int := clamp16 valprev1
    match index_read (delta ||| sign) with
    | none => none
    | some adj =>
      let index2 : Int := clamp_index (L.index + adj)
      match step_read index2 with
      | none => none
      | some step1 =>
        some { valprev := valprev2, index := index2, step := step1,
               pcm := L.pcm ++ [toInt16 valprev2] }

/-- The loop of `adpcm_decode` with checked reads: `n` iterations are left and
the counter is `i`. -/
def dec_loop_checked (adpcm : List Nat) : Nat → Nat → dec_locals → Option dec_locals
  | 0, _, L => some L
  | n + 1, i, L =>
    match dec_body_checked adpcm i L with
    | none => none
    | some L1 => dec_loop_checked adpcm n (i + 1) L1

/-- `adpcm_decode` (adpcm.c:85-113) with every array read checked, the first
being `step_table[index]` of adpcm.c:88. -/
def adpcm_decode_checked (adpcm : List Nat) (nsamples : Nat) (state : adpcm_state_t) :
    Option (List Int × adpcm_state_t) :=
  match step_read state.index with
  | none => none
  | some step =>
    match dec_loop_checked adpcm nsamples 0
        { valprev := state.valprev, index := state.index, step := step, pcm := [] } with
    | none => none
    | some L => some (L.pcm, { valprev := L.valprev, index := L.index })

/-- The codes chosen by `adpcm_encode` for the samples `pcm` from `state`. -/
def encode_codes (pcm : List Int) (state : adpcm_state_t) : List Nat :=
  enc_codes pcm (enc_init state)

/-- The predicted value `valprev` of `adpcm_encode` after each sample of `pcm`. -/
def encode_trace (pcm : List Int) (state : adpcm_state_t) : List Int :=
  enc_trace pcm (enc_init state)

end Mpy

namespace Cmod

/-- The codes `delta` chosen by the iterations of the loop of `adpcm_encode`
(modadpcm.c), in order, when the loop is entered with locals `L`. -/
def enc_codes : List Int → enc_locals → List Nat
  | [], _ => []
  | s :: rest, L => enc_delta L.valprev L.step s :: enc_codes rest (enc_body L s)

/-- The codes chosen by `adpcm_encode` (modadpcm.c) for the samples `pcm`. -/
def encode_codes (pcm : List Int) (state : adpcm_state_t) : List Nat :=
  enc_codes pcm (enc_init state)

/-- The locals of modadpcm.c read as locals of adpcm.c: `out` is `hi_nibble`,
`buffer` is `toggle`. -/
def to_mpy (L : enc_locals) : Mpy.enc_locals :=
  { valprev := L.valprev, index := L.index, step := L.step,
    hi_nibble := L.out, toggle := L.buffer, adpcm := L.adpcm }

/-- The decoder locals of modadpcm.c read as decoder locals of adpcm.c. -/
def dec_to_mpy (L : dec_locals) : Mpy.dec_locals :=
  { valprev := L.valprev, index := L.index, step := L.step, pcm := L.pcm }

end Cmod

/-! ## Arithmetic of one step -/

theorem toInt16_of_range {v : Int} (h1 : -32768 ≤ v) (h2 : v ≤ 32767) : toInt16 v = v := by
  unfold toInt16; omega

theorem nibble_bits : ∀ c < 16, (c &&& 7) &&& 4 = c &&& 4 ∧ (c &&& 7) &&& 2 = c &&& 2 ∧
    (c &&& 7) &&& 1 = c &&& 1 ∧ ((c &&& 7) ||| (c &&& 8)) = c &&& 0x0F := by
  decide

theorem pack_byte : ∀ c1 < 16, ∀ c2 < 16,
    ((((c1 <<< 4) &&& 0xF0) % 256) ||| (c2 &&& 0x0F)) % 256 = c1 * 16 + c2 := by
  decide

theorem unpack_hi : ∀ c1 < 16, ∀ c2 < 16, (c1 * 16 + c2) >>> 4 = c1 := by decide

theorem unpack_lo : ∀ c1 < 16, ∀ c2 < 16, (c1 * 16 + c2) &&& 0x0F = c2 := by decide

theorem land_15_of_lt : ∀ c < 16, c &&& 0x0F = c := by decide

namespace Mpy

theorem enc_delta_form (v st s : Int) :
    ∃ m, m < 8 ∧ enc_delta v st s = m ||| (if s - v < 0 then 8 else 0) := by
  unfold enc_delta
  simp only []
  split_ifs <;> exact ⟨_, by decide, rfl⟩

theorem enc_delta_lt (v st s : Int) : enc_delta v st s < 16 := by
  obtain ⟨m, hm, h⟩ := enc_delta_form v st s
  rw [h]
  split_ifs <;> interval_cases m <;> decide

theorem enc_delta_sign (v st s : Int) :
    enc_delta v st s &&& 8 = (if s - v < 0 then 8 else 0) := by
  obtain ⟨m, hm, h⟩ := enc_delta_form v st s
  rw [h]
  split_ifs <;> interval_cases m <;> decide

theorem clamp16_range (v : Int) : -32768 ≤ clamp16 v ∧ clamp16 v ≤ 32767 := by
  unfold clamp16; split_ifs <;> omega

theorem clamp_index_range (v : Int) : 0 ≤ clamp_index v ∧ clamp_index v ≤ 88 := by
  unfold clamp_index; split_ifs <;> omega

theorem vpdiff_of_low (st : Int) {c : Nat} (hc : c < 16) :
    vpdiff_of st (c &&& 7) = vpdiff_of st c := by
  obtain ⟨b4, b2, b1, -⟩ := nibble_bits c hc
  unfold vpdiff_of
  simp only [b4, b2, b1]

/-- The fields of the encoder locals after one iteration. -/
theorem enc_body_fields (L : enc_locals) (s : Int) :
    (enc_body L s).valprev = clamp16 (if s - L.valprev < 0
        then L.valprev - vpdiff_of L.step (enc_delta L.valprev L.step s)
        else L.valprev + vpdiff_of L.step (enc_delta L.valprev L.step s)) ∧
    (enc_body L s).index =
      clamp_index (L.index + index_adj (enc_delta L.valprev L.step s &&& 0x0F)) ∧
    (enc_body L s).step = step_at (enc_body L s).index := by
  unfold enc_body
  simp only []
  split_ifs <;> simp_all

theorem enc_body_valid (L : enc_locals) (s : Int) :
    valid_state { valprev := (enc_body L s).valprev, index := (enc_body L s).index } := by
  obtain ⟨hv, hi, -⟩ := enc_body_fields L s
  unfold valid_state
  simp only [hv, hi]
  exact ⟨clamp16_range _, clamp_index_range _⟩

theorem enc_body_packing (L : enc_locals) (s : Int) :
    (L.toggle = 0 → (enc_body L s).toggle = 1 ∧ (enc_body L s).adpcm = L.adpcm ∧
      (enc_body L s).hi_nibble = ((enc_delta L.valprev L.step s <<< 4) &&& 0xF0) % 256) ∧
    (L.toggle ≠ 0 → (enc_body L s).toggle = 0 ∧ (enc_body L s).hi_nibble = L.hi_nibble ∧
      (enc_body L s).adpcm = L.adpcm ++
        [(L.hi_nibble ||| (enc_delta L.valprev L.step s &&& 0x0F)) % 256]) := by
  unfold enc_body
  simp only []
  split_ifs with h <;> simp [h]

/-- The decoder applied to the code the encoder chose performs the encoder's
update of `valprev`, `index` and `step`, and stores the new `valprev`. -/
theorem dec_apply_enc_delta (L : enc_locals) (D : dec_locals) (s : Int)
    (hv : D.valprev = L.valprev) (hi : D.index = L.index) (hs : D.step = L.step) :
    dec_apply D (enc_delta L.valprev L.step s) =
      { valprev := (enc_body L s).valprev, index := (enc_body L s).index,
        step := (enc_body L s).step, pcm := D.pcm ++ [(enc_body L s).valprev] } := by
  have hlt := enc_delta_lt L.valprev L.step s
  obtain ⟨-, -, -, b0⟩ := nibble_bits _ hlt
  have h8 := enc_delta_sign L.valprev L.step s
  unfold dec_apply enc_body
  simp only [hv, hi, hs, b0, vpdiff_of_low _ hlt]
  simp only [h8]
  rw [toInt16_of_range (clamp16_range _).1 (clamp16_range _).2]
  split_ifs <;> rfl

/-! ## The encoder loop -/

theorem enc_codes_length (pcm : List Int) (L : enc_locals) :
    (enc_codes pcm L).length = pcm.length := by
  induction pcm generalizing L with
  | nil => rfl
  | cons s rest ih => simp [enc_codes, ih]

theorem enc_trace_length (pcm : List Int) (L : enc_locals) :
    (enc_trace pcm L).length = pcm.length := by
  induction pcm generalizing L with
  | nil => rfl
  | cons s rest ih => simp [enc_trace, ih]

theorem enc_codes_lt (pcm : List Int) (L : enc_locals) : ∀ c ∈ enc_codes pcm L, c < 16 := by
  induction pcm generalizing L with
  | nil => simp [enc_codes]
  | cons s rest ih =>
    intro c hc
    simp only [enc_codes, List.mem_cons] at hc
    rcases hc with rfl | hc
    · exact enc_delta_lt _ _ _
    · exact ih _ c hc

/-- The bytes stored by the loop are the packing of the codes it chose. -/
theorem enc_loop_adpcm (pcm : List Int) (L : enc_locals) :
    (enc_loop pcm L).adpcm = L.adpcm ++ pack_stream L.toggle L.hi_nibble (enc_codes pcm L) := by
  induction pcm generalizing L with
  | nil => simp [enc_loop, enc_codes, pack_stream]
  | cons s rest ih =>
    obtain ⟨h0, h1⟩ := enc_body_packing L s
    rw [enc_loop, ih, enc_codes, pack_stream]
    by_cases ht : L.toggle = 0
    · obtain ⟨a, b, c⟩ := h0 ht
      simp [ht, a, b, c]
    · obtain ⟨a, b, c⟩ := h1 ht
      simp [ht, a, b, c]

theorem pack_stream_one (hi c : Nat) (cs : List Nat) :
    pack_stream 1 hi (c :: cs) = ((hi ||| (c &&& 0x0F)) % 256) :: pack_stream 0 hi cs := by
  simp [pack_stream]

/-- Entered with `toggle = 0`, the packing of codes below 16 is `pack_pairs`. -/
theorem pack_stream_zero : ∀ (n : Nat) (cs : List Nat) (hi : Nat), cs.length ≤ n →
    (∀ c ∈ cs, c < 16) → pack_stream 0 hi cs = pack_pairs cs := by
  intro n
  induction n using Nat.strong_induction_on with
  | _ n ih =>
    intro cs hi hn hlt
    match cs, hn, hlt with
    | [], _, _ => simp [pack_stream, pack_pairs]
    | [a], _, _ => simp [pack_stream, pack_pairs]
    | a :: b :: rest, hn, hlt =>
      have ha : a < 16 := hlt a (by simp)
      have hb : b < 16 := hlt b (by simp)
      have hr : ∀ c ∈ rest, c < 16 := fun c hc => hlt c (by simp [hc])
      simp only [List.length_cons] at hn
      have := ih (n - 2) (by omega) rest (((a <<< 4) &&& 0xF0) % 256) (by omega) hr
      simp only [pack_stream, pack_pairs, if_true, one_ne_zero, if_false]
      rw [this, pack_byte a ha b hb]

end Mpy

/-! ## Packing and unpacking -/

theorem pack_pairs_get : ∀ (k : Nat) (cs : List Nat) (a b : Nat),
    cs[2 * k]? = some a → cs[2 * k + 1]? = some b → (pack_pairs cs)[k]? = some (a * 16 + b) := by
  intro k
  induction k with
  | zero =>
    intro cs a b ha hb
    match cs, ha, hb with
    | x :: y :: rest, ha, hb =>
      simp at ha hb
      simp [pack_pairs, ha, hb]
  | succ k ih =>
    intro cs a b ha hb
    match cs, ha, hb with
    | [], ha, _ => simp at ha
    | [x], _, hb => simp at hb
    | x :: y :: rest, ha, hb =>
      have e1 : 2 * (k + 1) = (2 * k + 1) + 1 := by ring
      have e2 : 2 * (k + 1) + 1 = ((2 * k + 1) + 1) + 1 := by ring
      rw [e1, List.getElem?_cons_succ, List.getElem?_cons_succ] at ha
      rw [e2, List.getElem?_cons_succ, List.getElem?_cons_succ] at hb
      rw [pack_pairs, List.getElem?_cons_succ]
      exact ih rest a b ha hb

namespace Mpy

/-- Reading position `i` of the packed codes gives back code `i`. -/
theorem dec_nibble_pack_pairs (cs : List Nat) (hlt : ∀ c ∈ cs, c < 16) (i : Nat)
    (hi : i < 2 * (cs.length / 2)) : dec_nibble (pack_pairs cs) i = cs[i]? := by
  have h0 : 2 * (i / 2) < cs.length := by omega
  have h1 : 2 * (i / 2) + 1 < cs.length := by omega
  have ha : cs[2 * (i / 2)]? = some cs[2 * (i / 2)] := List.getElem?_eq_getElem h0
  have hb : cs[2 * (i / 2) + 1]? = some cs[2 * (i / 2) + 1] := List.getElem?_eq_getElem h1
  have hbyte := pack_pairs_get (i / 2) cs _ _ ha hb
  have alt : cs[2 * (i / 2)] < 16 := hlt _ (List.getElem_mem _)
  have blt : cs[2 * (i / 2) + 1] < 16 := hlt _ (List.getElem_mem _)
  have hsh : i >>> 1 = i / 2 := by simp [Nat.shiftRight_eq_div_pow]
  unfold dec_nibble
  rw [hsh, hbyte]
  simp only [Nat.and_one_is_mod]
  rcases Nat.mod_two_eq_zero_or_one i with h | h
  · have e : i = 2 * (i / 2) := by omega
    simp only [h, ne_eq, not_true_eq_false, if_false]
    rw [unpack_hi _ alt _ blt]
    conv_rhs => rw [e]
    exact ha.symm
  · have e : i = 2 * (i / 2) + 1 := by omega
    simp only [h, ne_eq, one_ne_zero, not_false_eq_true, if_true]
    rw [unpack_lo _ alt _ blt]
    conv_rhs => rw [e]
    exact hb.symm

/-! ## The decoder loop -/

/-- When the positions `i, i+1, ...` hold the codes `cs`, the loop applies
`dec_apply` to them in order. -/
theorem dec_loop_codes (B : List Nat) : ∀ (cs : List Nat) (i : Nat) (D : dec_locals),
    (∀ j, j < cs.length → dec_nibble B (i + j) = cs[j]?) →
    dec_loop B cs.length i D = some (cs.foldl dec_apply D) := by
  intro cs
  induction cs with
  | nil => intro i D _; rfl
  | cons c rest ih =>
    intro i D h
    have h0 := h 0 (by simp)
    simp only [Nat.add_zero, List.getElem?_cons_zero] at h0
    have hrest : ∀ j, j < rest.length → dec_nibble B (i + 1 + j) = rest[j]? := by
      intro j hj
      have := h (j + 1) (by simp; omega)
      rw [List.getElem?_cons_succ] at this
      rw [← this]
      congr 1
      omega
    simp only [List.length_cons, dec_loop, dec_body, h0, List.foldl_cons]
    exact ih (i + 1) (dec_apply D c) hrest

/-- Applying the decoder step to the encoder's codes reproduces the encoder's
locals and stores the encoder's predicted values. -/
theorem foldl_dec_apply_enc_codes (pcm : List Int) : ∀ (L : enc_locals) (D : dec_locals),
    D.valprev = L.valprev → D.index = L.index → D.step = L.step →
    (enc_codes pcm L).foldl dec_apply D =
      { valprev := (enc_loop pcm L).valprev, index := (enc_loop pcm L).index,
        step := (enc_loop pcm L).step, pcm := D.pcm ++ enc_trace pcm L } := by
  induction pcm with
  | nil =>
    intro L D hv hi hs
    simp [enc_codes, enc_loop, enc_trace, ← hv, ← hi, ← hs]
  | cons s rest ih =>
    intro L D hv hi hs
    rw [enc_codes, List.foldl_cons, dec_apply_enc_delta L D s hv hi hs, ih (enc_body L s) _ rfl rfl rfl]
    simp [enc_loop, enc_trace]

/-- The bytes `adpcm_encode` stores are the pairwise packing of its codes. -/
theorem adpcm_encode_bytes (pcm : List Int) (S0 : adpcm_state_t) :
    (adpcm_encode pcm S0).1 = pack_pairs (encode_codes pcm S0) := by
  unfold adpcm_encode encode_codes
  simp only []
  rw [enc_loop_adpcm]
  have h0 : (enc_init S0).toggle = 0 := rfl
  have h1 : (enc_init S0).adpcm = [] := rfl
  rw [h0, h1, pack_stream_zero _ _ _ (le_refl _) (enc_codes_lt _ _), List.nil_append]

/-- For an even number of samples the decoder, run on the encoder's bytes from
the encoder's initial state, stores the encoder's predicted values and ends in
the encoder's final state. -/
theorem decode_encode_sync (pcm : List Int) (S0 : adpcm_state_t)
    (heven : pcm.length % 2 = 0) :
    adpcm_decode (adpcm_encode pcm S0).1 pcm.length S0 =
      some (encode_trace pcm S0, (adpcm_encode pcm S0).2) := by
  have hlen : (encode_codes pcm S0).length = pcm.length := enc_codes_length _ _
  have hread : ∀ j, j < (encode_codes pcm S0).length →
      dec_nibble (pack_pairs (encode_codes pcm S0)) (0 + j) = (encode_codes pcm S0)[j]? := by
    intro j hj
    rw [Nat.zero_add]
    exact dec_nibble_pack_pairs _ (enc_codes_lt _ _) j (by
      have hlen2 : (enc_codes pcm (enc_init S0)).length = pcm.length := enc_codes_length _ _
      rw [hlen] at hj; rw [hlen2]; omega)
  have hloop := dec_loop_codes _ (encode_codes pcm S0) 0 (dec_init S0) hread
  rw [hlen] at hloop
  unfold adpcm_decode
  rw [adpcm_encode_bytes, hloop]
  unfold encode_codes
  rw [foldl_dec_apply_enc_codes pcm (enc_init S0) (dec_init S0) rfl rfl rfl]
  simp [adpcm_encode, encode_trace, dec_init]

end Mpy

namespace Mpy

/-! ## State bounds -/

theorem enc_loop_valid (pcm : List Int) : ∀ (L : enc_locals),
    valid_state { valprev := L.valprev, index := L.index } →
    valid_state { valprev := (enc_loop pcm L).valprev, index := (enc_loop pcm L).index } := by
  induction pcm with
  | nil => intro L h; exact h
  | cons s rest ih => intro L _; exact ih _ (enc_body_valid L s)

theorem adpcm_encode_valid (pcm : List Int) (S0 : adpcm_state_t) (h : valid_state S0) :
    valid_state (adpcm_encode pcm S0).2 :=
  enc_loop_valid pcm (enc_init S0) h

/-- After one decoder step the state is valid and the stored sample is the new
`valprev`, not truncated. -/
theorem dec_apply_fields (D : dec_locals) (c : Nat) :
    valid_state { valprev := (dec_apply D c).valprev, index := (dec_apply D c).index } ∧
    (dec_apply D c).pcm = D.pcm ++ [(dec_apply D c).valprev] := by
  unfold dec_apply
  simp only []
  rw [toInt16_of_range (clamp16_range _).1 (clamp16_range _).2]
  exact ⟨⟨clamp16_range _, clamp_index_range _⟩, rfl⟩

/-- The loop run for `n + 1` iterations is the loop run for `n` iterations
followed by the iteration at position `i + n`. -/
theorem dec_loop_succ (B : List Nat) : ∀ (n i : Nat) (D : dec_locals),
    dec_loop B (n + 1) i D =
      match dec_loop B n i D with
      | none => none
      | some D1 => dec_body B (i + n) D1 := by
  intro n
  induction n with
  | zero =>
    intro i D
    simp only [dec_loop, Nat.add_zero]
    cases dec_body B i D <;> rfl
  | succ n ih =>
    intro i D
    rw [dec_loop]
    cases h : dec_body B i D with
    | none => simp [dec_loop, h]
    | some D1 =>
      simp only []
      rw [ih (i + 1) D1]
      have e : i + 1 + n = i + (n + 1) := by omega
      rw [e]
      conv_rhs => rw [dec_loop]
      simp only [h]

theorem dec_nibble_some (B : List Nat) (i : Nat) (h : i / 2 < B.length) :
    ∃ c, dec_nibble B i = some c := by
  have hsh : i >>> 1 = i / 2 := by simp [Nat.shiftRight_eq_div_pow]
  unfold dec_nibble
  rw [hsh, List.getElem?_eq_getElem h]
  exact ⟨_, rfl⟩

/-- `adpcm_decode` for `n + 1` samples extends `adpcm_decode` for `n` samples by
one sample, which is the new `valprev`. -/
theorem adpcm_decode_succ (B : List Nat) (n : Nat) (S0 : adpcm_state_t)
    (out0 : List Int) (st0 : adpcm_state_t)
    (h0 : adpcm_decode B n S0 = some (out0, st0)) (hb : n / 2 < B.length) :
    ∃ st, adpcm_decode B (n + 1) S0 = some (out0 ++ [st.valprev], st) ∧ valid_state st := by
  unfold adpcm_decode at h0 ⊢
  rw [dec_loop_succ]
  cases hl : dec_loop B n 0 (dec_init S0) with
  | none => simp [hl] at h0
  | some D =>
    simp only [hl, Option.some.injEq, Prod.mk.injEq] at h0
    obtain ⟨c, hc⟩ := dec_nibble_some B n hb
    obtain ⟨hv, hp⟩ := dec_apply_fields D c
    refine ⟨{ valprev := (dec_apply D c).valprev, index := (dec_apply D c).index }, ?_, hv⟩
    simp only [Nat.zero_add, dec_body, hc, hp, h0.1]

theorem adpcm_decode_zero (B : List Nat) (S0 : adpcm_state_t) :
    adpcm_decode B 0 S0 = some ([], S0) := rfl

/-- With enough packed bytes `adpcm_decode` returns; it stores exactly `n`
samples, ends in a valid state, and sample `j` is the value of `valprev` after
`j + 1` samples, a signed 16-bit value. -/
theorem adpcm_decode_total (B : List Nat) (S0 : adpcm_state_t) (hS : valid_state S0) :
    ∀ n, (n + 1) / 2 ≤ B.length →
    ∃ out st, adpcm_decode B n S0 = some (out, st) ∧ valid_state st ∧ out.length = n ∧
      ∀ j, j < n → ∃ o1 st1, adpcm_decode B (j + 1) S0 = some (o1, st1) ∧
        out[j]? = some st1.valprev ∧ is_int16 st1.valprev := by
  intro n
  induction n with
  | zero =>
    intro _
    exact ⟨[], S0, rfl, hS, rfl, fun j hj => absurd hj (Nat.not_lt_zero j)⟩
  | succ n ih =>
    intro hb
    obtain ⟨out0, st0, h0, _, hlen, hpre⟩ := ih (by omega)
    obtain ⟨st, hst, hv⟩ := adpcm_decode_succ B n S0 out0 st0 h0 (by omega)
    refine ⟨out0 ++ [st.valprev], st, hst, hv, by simp [hlen], ?_⟩
    intro j hj
    rcases Nat.lt_succ_iff_lt_or_eq.mp hj with hlt | rfl
    · obtain ⟨o1, st1, h1, hget, hr⟩ := hpre j hlt
      refine ⟨o1, st1, h1, ?_, hr⟩
      rw [List.getElem?_append_left (by omega)]
      exact hget
    · refine ⟨_, st, hst, ?_, hv.1⟩
      rw [List.getElem?_append_right (by omega)]
      simp [hlen]

end Mpy

/-! ## The two source instances agree -/

namespace Cmod

theorem clamp16_eq (v : Int) : clamp16 v = Mpy.clamp16 v := by
  unfold clamp16 Mpy.clamp16
  split_ifs <;> omega

theorem index_adj_land (c : Nat) (hc : c < 16) : index_adj c = Mpy.index_adj (c &&& 0x0F) := by
  rw [land_15_of_lt c hc]; rfl

theorem enc_body_to_mpy (L : enc_locals) (s : Int) :
    to_mpy (enc_body L s) = Mpy.enc_body (to_mpy L) s := by
  have hlt : enc_delta L.valprev L.step s < 16 := Mpy.enc_delta_lt _ _ _
  unfold enc_body Mpy.enc_body to_mpy
  simp only [clamp16_eq, index_adj_land _ hlt]
  by_cases hb : L.buffer = 0
  · simp [hb]; exact ⟨rfl, rfl, rfl, rfl⟩
  · simp [hb]; exact ⟨rfl, rfl, rfl, rfl⟩

theorem enc_loop_to_mpy (pcm : List Int) : ∀ L : enc_locals,
    to_mpy (enc_loop pcm L) = Mpy.enc_loop pcm (to_mpy L) := by
  induction pcm with
  | nil => intro L; rfl
  | cons s rest ih => intro L; rw [enc_loop, Mpy.enc_loop, ih, enc_body_to_mpy]

theorem enc_codes_to_mpy (pcm : List Int) : ∀ L : enc_locals,
    enc_codes pcm L = Mpy.enc_codes pcm (to_mpy L) := by
  induction pcm with
  | nil => intro L; rfl
  | cons s rest ih =>
    intro L
    rw [enc_codes, Mpy.enc_codes, ih, enc_body_to_mpy]
    rfl

theorem adpcm_encode_eq_mpy (pcm : List Int) (S0 : adpcm_state_t) :
    adpcm_encode pcm S0 = Mpy.adpcm_encode pcm S0 := by
  have h := enc_loop_to_mpy pcm (enc_init S0)
  have hi : to_mpy (enc_init S0) = Mpy.enc_init S0 := rfl
  rw [hi] at h
  unfold adpcm_encode Mpy.adpcm_encode
  simp only [← h]
  rfl

theorem encode_codes_eq_mpy (pcm : List Int) (S0 : adpcm_state_t) :
    encode_codes pcm S0 = Mpy.encode_codes pcm S0 :=
  enc_codes_to_mpy pcm (enc_init S0)

theorem dec_apply_to_mpy (D : dec_locals) (c : Nat) :
    dec_to_mpy (dec_apply D c) = Mpy.dec_apply (dec_to_mpy D) c := by
  unfold dec_apply Mpy.dec_apply dec_to_mpy
  simp only [clamp16_eq]
  rfl

theorem dec_loop_to_mpy (B : List Nat) : ∀ (n i : Nat) (D : dec_locals),
    (dec_loop B n i D).map dec_to_mpy = Mpy.dec_loop B n i (dec_to_mpy D) := by
  intro n
  induction n with
  | zero => intro i D; rfl
  | succ n ih =>
    intro i D
    simp only [dec_loop, Mpy.dec_loop, dec_body, Mpy.dec_body]
    have hn : dec_nibble B i = Mpy.dec_nibble B i := rfl
    rw [hn]
    cases Mpy.dec_nibble B i with
    | none => rfl
    | some c =>
      simp only []
      rw [ih, dec_apply_to_mpy]

theorem adpcm_decode_eq_mpy (B : List Nat) (n : Nat) (S0 : adpcm_state_t) :
    adpcm_decode B n S0 = Mpy.adpcm_decode B n S0 := by
  have h := dec_loop_to_mpy B n 0 (dec_init S0)
  have hi : dec_to_mpy (dec_init S0) = Mpy.dec_init S0 := rfl
  rw [hi] at h
  unfold adpcm_decode Mpy.adpcm_decode
  rw [← h]
  cases dec_loop B n 0 (dec_init S0) with
  | none => rfl
  | some D => rfl

end Cmod

/-! ## Buffers -/

theorem store_at_length {α : Type} (vals : List α) : ∀ (buf : List α) (off : Nat),
    (store_at buf off vals).length = buf.length := by
  induction vals with
  | nil => intro buf off; rfl
  | cons v vs ih => intro buf off; rw [store_at, ih, List.length_set]

/-- The stores change the positions `off .. off + vals.length - 1` only. -/
theorem store_at_getElem? {α : Type} (vals : List α) : ∀ (buf : List α) (off i : Nat),
    (store_at buf off vals)[i]? =
      if off ≤ i ∧ i < off + vals.length ∧ i < buf.length then vals[i - off]? else buf[i]? := by
  induction vals with
  | nil =>
    intro buf off i
    have : ¬ (off ≤ i ∧ i < off + ([] : List α).length ∧ i < buf.length) := by
      simp only [List.length_nil]; omega
    rw [if_neg this]; rfl
  | cons v vs ih =>
    intro buf off i
    rw [store_at, ih, List.length_set, List.getElem?_set]
    by_cases h1 : off + 1 ≤ i ∧ i < off + 1 + vs.length ∧ i < buf.length
    · have h2 : off ≤ i ∧ i < off + (v :: vs).length ∧ i < buf.length := by
        simp only [List.length_cons]; omega
      rw [if_pos h1, if_pos h2]
      have e : i - off = (i - (off + 1)) + 1 := by omega
      rw [e, List.getElem?_cons_succ]
    · rw [if_neg h1]
      by_cases h3 : off = i
      · subst h3
        by_cases h4 : off < buf.length
        · have h2 : off ≤ off ∧ off < off + (v :: vs).length ∧ off < buf.length := by
            simp only [List.length_cons]; omega
          simp [h2, h4]
        · have h2 : ¬ (off ≤ off ∧ off < off + (v :: vs).length ∧ off < buf.length) := by
            omega
          rw [if_neg h2]
          simp only [if_true, if_neg h4]
          exact (List.getElem?_eq_none (by omega)).symm
      · have h2 : ¬ (off ≤ i ∧ i < off + (v :: vs).length ∧ i < buf.length) := by
          simp only [List.length_cons]; omega
        rw [if_neg h2, if_neg h3]

/-- Stores that fit into the buffer replace its first bytes and keep the rest. -/
theorem store_at_zero {α : Type} (vals buf : List α) (h : vals.length ≤ buf.length) :
    store_at buf 0 vals = vals ++ buf.drop vals.length := by
  apply List.ext_getElem?
  intro i
  rw [store_at_getElem?]
  by_cases hi : i < vals.length
  · have h2 : 0 ≤ i ∧ i < 0 + vals.length ∧ i < buf.length := by omega
    rw [if_pos h2, List.getElem?_append_left hi]
    simp
  · have h2 : ¬ (0 ≤ i ∧ i < 0 + vals.length ∧ i < buf.length) := by omega
    rw [if_neg h2, List.getElem?_append_right (by omega), List.getElem?_drop]
    congr 1
    omega

theorem pcm_of_bytes_length : ∀ (n : Nat) (bs : List Nat), bs.length ≤ n →
    (pcm_of_bytes bs).length = bs.length / 2 := by
  intro n
  induction n using Nat.strong_induction_on with
  | _ n ih =>
    intro bs hn
    match bs, hn with
    | [], _ => simp [pcm_of_bytes]
    | [a], _ => simp [pcm_of_bytes]
    | a :: b :: rest, hn =>
      simp only [List.length_cons] at hn
      have := ih (n - 2) (by omega) rest (by omega)
      simp only [pcm_of_bytes, List.length_cons, this]
      omega

theorem bytes_of_pcm_length (vs : List Int) : (bytes_of_pcm vs).length = 2 * vs.length := by
  induction vs with
  | nil => rfl
  | cons v rest ih => simp only [bytes_of_pcm, List.length_cons, ih]; omega

theorem pack_pairs_length : ∀ (n : Nat) (cs : List Nat), cs.length ≤ n →
    (pack_pairs cs).length = cs.length / 2 := by
  intro n
  induction n using Nat.strong_induction_on with
  | _ n ih =>
    intro cs hn
    match cs, hn with
    | [], _ => simp [pack_pairs]
    | [a], _ => simp [pack_pairs]
    | a :: b :: rest, hn =>
      simp only [List.length_cons] at hn
      have := ih (n - 2) (by omega) rest (by omega)
      simp only [pack_pairs, List.length_cons, this]
      omega

namespace Mpy

/-- The engine stores one byte per pair of samples. -/
theorem adpcm_encode_length (pcm : List Int) (S0 : adpcm_state_t) :
    (adpcm_encode pcm S0).1.length = pcm.length / 2 := by
  rw [adpcm_encode_bytes, pack_pairs_length _ _ (le_refl _)]
  unfold encode_codes
  rw [enc_codes_length]

/-- The samples handed to the engine by the bindings. -/
theorem binding_samples_length (pcm_buf : List Nat) :
    ((pcm_of_bytes pcm_buf).take (pcm_buf.length / 2)).length = pcm_buf.length / 2 := by
  rw [List.length_take, pcm_of_bytes_length _ _ (le_refl _)]
  exact Nat.min_self _

theorem py_adpcm_encode_into_even (pcm_buf out_buf : List Nat)
    (heven : pcm_buf.length % 2 = 0) (hcap : pcm_buf.length / 2 / 2 ≤ out_buf.length) :
    py_adpcm_encode_into pcm_buf out_buf =
      (((pcm_buf.length / 2 / 2 : Nat) : Int),
        (adpcm_encode ((pcm_of_bytes pcm_buf).take (pcm_buf.length / 2))
            { valprev := 0, index := 0 }).1 ++ out_buf.drop (pcm_buf.length / 2 / 2)) := by
  have hw := adpcm_encode_length ((pcm_of_bytes pcm_buf).take (pcm_buf.length / 2))
    { valprev := 0, index := 0 }
  rw [binding_samples_length] at hw
  unfold py_adpcm_encode_into
  simp only [Nat.and_one_is_mod, heven, ne_eq, not_true_eq_false, if_false]
  rw [if_neg (by omega), store_at_zero _ _ (by omega), hw]

theorem py_adpcm_encode_even (pcm_buf : List Nat) (heven : pcm_buf.length % 2 = 0) :
    py_adpcm_encode pcm_buf = py_result.bytes
      (adpcm_encode ((pcm_of_bytes pcm_buf).take (pcm_buf.length / 2))
        { valprev := 0, index := 0 }).1 := by
  have hw := adpcm_encode_length ((pcm_of_bytes pcm_buf).take (pcm_buf.length / 2))
    { valprev := 0, index := 0 }
  rw [binding_samples_length] at hw
  unfold py_adpcm_encode
  simp only [Nat.and_one_is_mod, heven, ne_eq, not_true_eq_false, if_false]
  rw [store_at_zero _ _ (by simp [hw]), hw]
  simp [hw]

/-- With enough packed bytes `adpcm_decode` returns and stores `n` samples. -/
theorem adpcm_decode_some (B : List Nat) (S0 : adpcm_state_t) :
    ∀ n, (n + 1) / 2 ≤ B.length →
    ∃ out st, adpcm_decode B n S0 = some (out, st) ∧ out.length = n := by
  intro n
  induction n with
  | zero => intro _; exact ⟨[], S0, rfl, rfl⟩
  | succ n ih =>
    intro hb
    obtain ⟨out0, st0, h0, hlen⟩ := ih (by omega)
    obtain ⟨st, hst, _⟩ := adpcm_decode_succ B n S0 out0 st0 h0 (by omega)
    exact ⟨out0 ++ [st.valprev], st, hst, by simp [hlen]⟩

theorem py_adpcm_decode_into_eq (adpcm_buf out_buf : List Nat) :
    ∃ samples st,
      adpcm_decode adpcm_buf (adpcm_buf.length * 2) { valprev := 0, index := 0 } =
        some (samples, st) ∧
      samples.length = adpcm_buf.length * 2 ∧
      py_adpcm_decode_into adpcm_buf out_buf =
        if out_buf.length < adpcm_buf.length * 2 * 2 then some (-1, out_buf)
        else some (((adpcm_buf.length * 2 * 2 : Nat) : Int),
          bytes_of_pcm samples ++ out_buf.drop (adpcm_buf.length * 2 * 2)) := by
  obtain ⟨samples, st, hd, hlen⟩ := adpcm_decode_some adpcm_buf { valprev := 0, index := 0 }
    (adpcm_buf.length * 2) (by omega)
  refine ⟨samples, st, hd, hlen, ?_⟩
  unfold py_adpcm_decode_into
  simp only [hd]
  by_cases h : out_buf.length < adpcm_buf.length * 2 * 2
  · rw [if_pos h, if_pos h]
  · rw [if_neg h, if_neg h]
    have hb : (bytes_of_pcm samples).length = adpcm_buf.length * 2 * 2 := by
      rw [bytes_of_pcm_length, hlen]; omega
    rw [store_at_zero _ _ (by omega), hb]

theorem py_adpcm_decode_eq (adpcm_buf : List Nat) :
    ∃ samples st,
      adpcm_decode adpcm_buf (adpcm_buf.length * 2) { valprev := 0, index := 0 } =
        some (samples, st) ∧
      samples.length = adpcm_buf.length * 2 ∧
      py_adpcm_decode adpcm_buf = some (bytes_of_pcm samples) := by
  obtain ⟨samples, st, hd, hlen⟩ := adpcm_decode_some adpcm_buf { valprev := 0, index := 0 }
    (adpcm_buf.length * 2) (by omega)
  refine ⟨samples, st, hd, hlen, ?_⟩
  unfold py_adpcm_decode
  simp only [hd]
  rw [store_at_zero _ _ (by simp [hlen])]
  have hb : (bytes_of_pcm samples).length = adpcm_buf.length * 2 * 2 := by
    rw [bytes_of_pcm_length, hlen]; omega
  simp [hlen, ← hb]

end Mpy

namespace Cmod

theorem mod_adpcm_encode_eq_mpy (pcm_buf : List Nat) :
    mod_adpcm_encode pcm_buf = Mpy.py_adpcm_encode pcm_buf := by
  unfold mod_adpcm_encode Mpy.py_adpcm_encode
  simp only [Nat.and_one_is_mod, adpcm_encode_eq_mpy]

theorem mod_adpcm_decode_eq_mpy (adpcm_buf : List Nat) :
    mod_adpcm_decode adpcm_buf = Mpy.py_adpcm_decode adpcm_buf := by
  unfold mod_adpcm_decode Mpy.py_adpcm_decode
  simp only [adpcm_decode_eq_mpy]

end Cmod

/-! ## The properties of the specification -/

/-- C1, as stated, fails: the codec is lossy.  From the valid state `{0, 0}` the
two 16-bit samples `[2, 2]` are encoded to the byte `0x11`, and decoding that
byte for two samples from the same state gives `[1, 2]`, not `[2, 2]`. -/
theorem roundtrip_identity_counterexample :
    valid_state { valprev := 0, index := 0 } ∧ (∀ v ∈ [(2 : Int), 2], is_int16 v) ∧
    (Mpy.adpcm_encode [2, 2] { valprev := 0, index := 0 }).1 = [17] ∧
    Mpy.adpcm_decode (Mpy.adpcm_encode [2, 2] { valprev := 0, index := 0 }).1
      [(2 : Int), 2].length { valprev := 0, index := 0 } =
        some ([1, 2], { valprev := 2, index := 0 }) ∧
    (Mpy.adpcm_decode (Mpy.adpcm_encode [2, 2] { valprev := 0, index := 0 }).1
      [(2 : Int), 2].length { valprev := 0, index := 0 }).map Prod.fst ≠ some [2, 2] := by
  decide

/-- C1, amended: for every sequence `X` of signed 16-bit samples of even length
and every valid initial state `S0`, `adpcm_decode` run on the bytes of
`adpcm_encode X S0` for `X.length` samples from `S0` returns, and the samples it
yields are the encoder's predicted values after each sample of `X` (its lossy
reconstruction of `X`); they are `X` itself exactly when that reconstruction
is `X`. -/
theorem roundtrip_reconstruction (X : List Int) (S0 : adpcm_state_t)
    (_hS : valid_state S0) (_hX : ∀ v ∈ X, is_int16 v) (heven : X.length % 2 = 0) :
    (Mpy.adpcm_decode (Mpy.adpcm_encode X S0).1 X.length S0).map Prod.fst =
        some (Mpy.encode_trace X S0) ∧
    (Mpy.encode_trace X S0).length = X.length ∧
    ((Mpy.adpcm_decode (Mpy.adpcm_encode X S0).1 X.length S0).map Prod.fst = some X ↔
        Mpy.encode_trace X S0 = X) := by
  have h := Mpy.decode_encode_sync X S0 heven
  rw [h]
  exact ⟨rfl, Mpy.enc_trace_length _ _, by simp⟩

/-- C1, amended, at the samples `[1000, -1000, 500, 0]` from the state `{0, 0}`. -/
theorem roundtrip_reconstruction_witness :
    valid_state { valprev := 0, index := 0 } ∧
    (∀ v ∈ [(1000 : Int), -1000, 500, 0], is_int16 v) ∧
    [(1000 : Int), -1000, 500, 0].length % 2 = 0 ∧
    (Mpy.adpcm_decode (Mpy.adpcm_encode [1000, -1000, 500, 0] { valprev := 0, index := 0 }).1
        [(1000 : Int), -1000, 500, 0].length { valprev := 0, index := 0 }).map Prod.fst =
      some (Mpy.encode_trace [1000, -1000, 500, 0] { valprev := 0, index := 0 }) :=
  ⟨by decide, by decide, by decide,
    (roundtrip_reconstruction [1000, -1000, 500, 0] { valprev := 0, index := 0 }
      (by decide) (by decide) (by decide)).1⟩

/-- C2: from a valid initial state, the state of `adpcm_encode` after any number
`k` of samples of any input is valid (`valprev` in `[-32768, 32767]`, `index` in
`[0, 88]`); and `adpcm_decode`, for every packed buffer holding the `n` codes it
reads, returns `n` samples and a valid state, sample `j` being the value of
`valprev` after `j + 1` samples, a signed 16-bit value stored without
truncation. -/
theorem state_bounds (S0 : adpcm_state_t) (hS : valid_state S0) :
    (∀ (pcm : List Int) (k : Nat), valid_state (Cmod.adpcm_encode (pcm.take k) S0).2) ∧
    (∀ (adpcm : List Nat) (n : Nat), (n + 1) / 2 ≤ adpcm.length →
      ∃ out st, Cmod.adpcm_decode adpcm n S0 = some (out, st) ∧ valid_state st ∧
        out.length = n ∧
        ∀ j, j < n → ∃ o1 st1, Cmod.adpcm_decode adpcm (j + 1) S0 = some (o1, st1) ∧
          out[j]? = some st1.valprev ∧ is_int16 st1.valprev) := by
  constructor
  · intro pcm k
    rw [Cmod.adpcm_encode_eq_mpy]
    exact Mpy.adpcm_encode_valid _ S0 hS
  · intro adpcm n hn
    obtain ⟨out, st, h, hv, hl, hp⟩ := Mpy.adpcm_decode_total adpcm S0 hS n hn
    refine ⟨out, st, by rw [Cmod.adpcm_decode_eq_mpy]; exact h, hv, hl, ?_⟩
    intro j hj
    obtain ⟨o1, st1, h1, hg, hr⟩ := hp j hj
    exact ⟨o1, st1, by rw [Cmod.adpcm_decode_eq_mpy]; exact h1, hg, hr⟩

/-- C2 at the state `{0, 0}`, the samples `[32767, -32768]` and the packed bytes
`[0x7F, 0xF7]`. -/
theorem state_bounds_witness :
    valid_state { valprev := 0, index := 0 } ∧
    valid_state (Cmod.adpcm_encode ([(32767 : Int), -32768].take 1)
      { valprev := 0, index := 0 }).2 ∧
    (3 + 1) / 2 ≤ [127, 247].length ∧
    ∃ out st, Cmod.adpcm_decode [127, 247] 3 { valprev := 0, index := 0 } = some (out, st) ∧
      valid_state st ∧ out.length = 3 ∧
      ∀ j, j < 3 → ∃ o1 st1,
        Cmod.adpcm_decode [127, 247] (j + 1) { valprev := 0, index := 0 } = some (o1, st1) ∧
        out[j]? = some st1.valprev ∧ is_int16 st1.valprev :=
  ⟨by decide,
    (state_bounds { valprev := 0, index := 0 } (by decide)).1 [32767, -32768] 1,
    by decide,
    (state_bounds { valprev := 0, index := 0 } (by decide)).2 [127, 247] 3 (by decide)⟩

/-- C3 fails on one sample: `ceil(1/2) = 1`, but for the single sample `100`
both engines store no byte, and both allocating encoders return an empty bytes
object for the two-byte PCM buffer `[100, 0]`. -/
theorem encode_sizing_odd_count :
    (1 + 1) / 2 = 1 ∧
    (Mpy.adpcm_encode [100] { valprev := 0, index := 0 }).1.length = 0 ∧
    (Cmod.adpcm_encode [100] { valprev := 0, index := 0 }).1.length = 0 ∧
    Mpy.py_adpcm_encode [100, 0] = py_result.bytes [] ∧
    Cmod.mod_adpcm_encode [100, 0] = py_result.bytes [] := by
  decide

/-- C4: the codes chosen by `adpcm_encode` are one per sample and below 16;
byte `k` of its output, for `k < N / 2`, is `16 * code(2k) + code(2k+1)`, in
both source instances; `adpcm_decode` reads position `i` from the high nibble of
byte `i / 2` when `i` is even and from its low nibble when `i` is odd; and read
this way the encoder's bytes give back the encoder's codes in order. -/
theorem nibble_packing_order (pcm : List Int) (S0 : adpcm_state_t) :
    ((Mpy.encode_codes pcm S0).length = pcm.length ∧
      ∀ c ∈ Mpy.encode_codes pcm S0, c < 16) ∧
    (∀ k, k < pcm.length / 2 → ∃ a b,
      (Mpy.encode_codes pcm S0)[2 * k]? = some a ∧
      (Mpy.encode_codes pcm S0)[2 * k + 1]? = some b ∧
      (Mpy.adpcm_encode pcm S0).1[k]? = some (a * 16 + b)) ∧
    (∀ k, k < pcm.length / 2 → ∃ a b,
      (Cmod.encode_codes pcm S0)[2 * k]? = some a ∧
      (Cmod.encode_codes pcm S0)[2 * k + 1]? = some b ∧
      (Cmod.adpcm_encode pcm S0).1[k]? = some (a * 16 + b)) ∧
    (∀ (B : List Nat) (i : Nat), Mpy.dec_nibble B i =
      (B[i / 2]?).map (fun packed => if i % 2 = 0 then packed / 16 else packed % 16)) ∧
    (∀ i, i < 2 * (pcm.length / 2) → ∃ c,
      (Mpy.encode_codes pcm S0)[i]? = some c ∧
      Mpy.dec_nibble (Mpy.adpcm_encode pcm S0).1 i = some c) := by
  have hlen : (Mpy.encode_codes pcm S0).length = pcm.length := Mpy.enc_codes_length _ _
  have hlt : ∀ c ∈ Mpy.encode_codes pcm S0, c < 16 := Mpy.enc_codes_lt _ _
  have hbytes : ∀ k, k < pcm.length / 2 → ∃ a b,
      (Mpy.encode_codes pcm S0)[2 * k]? = some a ∧
      (Mpy.encode_codes pcm S0)[2 * k + 1]? = some b ∧
      (Mpy.adpcm_encode pcm S0).1[k]? = some (a * 16 + b) := by
    intro k hk
    have h0 : 2 * k < (Mpy.encode_codes pcm S0).length := by omega
    have h1 : 2 * k + 1 < (Mpy.encode_codes pcm S0).length := by omega
    refine ⟨_, _, List.getElem?_eq_getElem h0, List.getElem?_eq_getElem h1, ?_⟩
    rw [Mpy.adpcm_encode_bytes]
    exact pack_pairs_get k _ _ _ (List.getElem?_eq_getElem h0) (List.getElem?_eq_getElem h1)
  refine ⟨⟨hlen, hlt⟩, hbytes, ?_, ?_, ?_⟩
  · rw [Cmod.encode_codes_eq_mpy, Cmod.adpcm_encode_eq_mpy]
    exact hbytes
  · intro B i
    have hsh : i >>> 1 = i / 2 := by simp [Nat.shiftRight_eq_div_pow]
    unfold Mpy.dec_nibble
    rw [hsh]
    cases B[i / 2]? with
    | none => rfl
    | some packed =>
      have e1 : packed &&& 0x0F = packed % 16 := Nat.and_pow_two_sub_one_eq_mod packed 4
      have e2 : packed >>> 4 = packed / 16 := by simp [Nat.shiftRight_eq_div_pow]
      simp only [Nat.and_one_is_mod, Option.map_some', e1, e2]
      rcases Nat.mod_two_eq_zero_or_one i with h | h <;> simp [h]
  · intro i hi
    have h0 : i < (Mpy.encode_codes pcm S0).length := by omega
    refine ⟨_, List.getElem?_eq_getElem h0, ?_⟩
    rw [Mpy.adpcm_encode_bytes, Mpy.dec_nibble_pack_pairs _ hlt i (by omega)]
    exact List.getElem?_eq_getElem h0

/-- C4 at the samples `[1000, -1000, 500, 0]` from the state `{0, 0}`: byte 1 of
the output and position 3 of the packed stream. -/
theorem nibble_packing_order_witness :
    1 < [(1000 : Int), -1000, 500, 0].length / 2 ∧
    3 < 2 * ([(1000 : Int), -1000, 500, 0].length / 2) ∧
    (∃ a b,
      (Mpy.encode_codes [1000, -1000, 500, 0] { valprev := 0, index := 0 })[2 * 1]? = some a ∧
      (Mpy.encode_codes [1000, -1000, 500, 0] { valprev := 0, index := 0 })[2 * 1 + 1]? =
        some b ∧
      (Mpy.adpcm_encode [1000, -1000, 500, 0] { valprev := 0, index := 0 }).1[1]? =
        some (a * 16 + b)) ∧
    (∃ c,
      (Mpy.encode_codes [1000, -1000, 500, 0] { valprev := 0, index := 0 })[3]? = some c ∧
      Mpy.dec_nibble (Mpy.adpcm_encode [1000, -1000, 500, 0] { valprev := 0, index := 0 }).1 3 =
        some c) :=
  ⟨by decide, by decide,
    (nibble_packing_order [1000, -1000, 500, 0] { valprev := 0, index := 0 }).2.1 1 (by decide),
    (nibble_packing_order [1000, -1000, 500, 0] { valprev := 0, index := 0 }).2.2.2.2 3
      (by decide)⟩

/-- C5: for every PCM byte buffer of odd length the allocating encoder raises
`ValueError`, and `encode_into` returns -1 and leaves every destination buffer
as it was; neither reaches the engine. -/
theorem odd_framing_rejected (pcm_buf : List Nat) (hodd : pcm_buf.length % 2 = 1) :
    Mpy.py_adpcm_encode pcm_buf = py_result.ValueError ∧
    ∀ out_buf : List Nat, Mpy.py_adpcm_encode_into pcm_buf out_buf = (-1, out_buf) := by
  constructor
  · unfold Mpy.py_adpcm_encode
    simp [Nat.and_one_is_mod, hodd]
  · intro out_buf
    unfold Mpy.py_adpcm_encode_into
    simp [Nat.and_one_is_mod, hodd]

/-- C5 at the three-byte PCM buffer `[1, 2, 3]` and the destination `[9, 9]`. -/
theorem odd_framing_rejected_witness :
    [1, 2, 3].length % 2 = 1 ∧
    Mpy.py_adpcm_encode [1, 2, 3] = py_result.ValueError ∧
    Mpy.py_adpcm_encode_into [1, 2, 3] [9, 9] = (-1, [9, 9]) :=
  ⟨by decide, (odd_framing_rejected [1, 2, 3] (by decide)).1,
    (odd_framing_rejected [1, 2, 3] (by decide)).2 [9, 9]⟩

/-- C6 fails on three samples: the six-byte PCM buffer of the samples
`[1000, -1000, 500]` has `N = 3`, the destination `[0xAA]` has length
`ceil(3/2) - 1 = 1`, and `encode_into` returns 1 and overwrites the destination
byte with `0x7F` instead of returning -1. -/
theorem encode_into_short_destination_odd_count :
    [0xE8, 0x03, 0x18, 0xFC, 0xF4, 0x01].length % 2 = 0 ∧
    pcm_of_bytes [0xE8, 0x03, 0x18, 0xFC, 0xF4, 0x01] = [1000, -1000, 500] ∧
    [0xAA].length = (3 + 1) / 2 - 1 ∧
    Mpy.py_adpcm_encode_into [0xE8, 0x03, 0x18, 0xFC, 0xF4, 0x01] [0xAA] = (1, [0x7F]) := by
  decide

/-- C7: for every ADPCM buffer of length `L` and every destination of length
`D`, the engine run by `decode_into` returns `2 * L` samples, and `decode_into`
returns -1 with the destination unchanged when `D < 4 * L`, and otherwise
returns `4 * L` with the bytes of the `2 * L` samples stored at the start of the
destination and the rest of the destination unchanged. -/
theorem decode_into_size_check (adpcm_buf out_buf : List Nat) :
    ∃ samples st,
      Mpy.adpcm_decode adpcm_buf (2 * adpcm_buf.length) { valprev := 0, index := 0 } =
        some (samples, st) ∧
      samples.length = 2 * adpcm_buf.length ∧
      Mpy.py_adpcm_decode_into adpcm_buf out_buf =
        if out_buf.length < 4 * adpcm_buf.length then some (-1, out_buf)
        else some (((4 * adpcm_buf.length : Nat) : Int),
          bytes_of_pcm samples ++ out_buf.drop (4 * adpcm_buf.length)) := by
  obtain ⟨samples, st, hd, hlen, hr⟩ := Mpy.py_adpcm_decode_into_eq adpcm_buf out_buf
  have e2 : adpcm_buf.length * 2 = 2 * adpcm_buf.length := by omega
  have e4 : adpcm_buf.length * 2 * 2 = 4 * adpcm_buf.length := by omega
  rw [e4] at hr
  rw [e2] at hd hlen
  exact ⟨samples, st, hd, hlen, hr⟩

/-- C8: for every PCM buffer of even length, holding `N` samples, and every
destination of length at least `N / 2`, `encode_into` returns `N / 2`, which is
the number of bytes the engine stores; the destination afterwards is those bytes
followed by the destination from index `N / 2` on, so every byte at an index
`≥ N / 2` is unchanged. -/
theorem encode_into_reports_written (pcm_buf out_buf : List Nat)
    (heven : pcm_buf.length % 2 = 0) (hcap : pcm_buf.length / 2 / 2 ≤ out_buf.length) :
    (Mpy.py_adpcm_encode_into pcm_buf out_buf).1 = ((pcm_buf.length / 2 / 2 : Nat) : Int) ∧
    (Mpy.adpcm_encode ((pcm_of_bytes pcm_buf).take (pcm_buf.length / 2))
      { valprev := 0, index := 0 }).1.length = pcm_buf.length / 2 / 2 ∧
    (Mpy.py_adpcm_encode_into pcm_buf out_buf).2 =
      (Mpy.adpcm_encode ((pcm_of_bytes pcm_buf).take (pcm_buf.length / 2))
        { valprev := 0, index := 0 }).1 ++ out_buf.drop (pcm_buf.length / 2 / 2) ∧
    (Mpy.py_adpcm_encode_into pcm_buf out_buf).2.length = out_buf.length ∧
    ∀ i, pcm_buf.length / 2 / 2 ≤ i →
      (Mpy.py_adpcm_encode_into pcm_buf out_buf).2[i]? = out_buf[i]? := by
  have hw := Mpy.adpcm_encode_length ((pcm_of_bytes pcm_buf).take (pcm_buf.length / 2))
    { valprev := 0, index := 0 }
  rw [Mpy.binding_samples_length] at hw
  rw [Mpy.py_adpcm_encode_into_even pcm_buf out_buf heven hcap]
  refine ⟨rfl, hw, rfl, ?_, ?_⟩
  · simp only [List.length_append, List.length_drop, hw]
    omega
  · intro i hi
    simp only []
    rw [List.getElem?_append_right (by omega), List.getElem?_drop, hw]
    congr 1
    omega

/-- C8 at the eight-byte PCM buffer of the samples `[1000, -1000, 500, 0]` and a
destination of three bytes. -/
theorem encode_into_reports_written_witness :
    [0xE8, 0x03, 0x18, 0xFC, 0xF4, 0x01, 0, 0].length % 2 = 0 ∧
    [0xE8, 0x03, 0x18, 0xFC, 0xF4, 0x01, 0, 0].length / 2 / 2 ≤ [0xAA, 0xBB, 0xCC].length ∧
    (Mpy.py_adpcm_encode_into [0xE8, 0x03, 0x18, 0xFC, 0xF4, 0x01, 0, 0] [0xAA, 0xBB, 0xCC]).1 =
      (([0xE8, 0x03, 0x18, 0xFC, 0xF4, 0x01, 0, 0].length / 2 / 2 : Nat) : Int) ∧
    (Mpy.py_adpcm_encode_into [0xE8, 0x03, 0x18, 0xFC, 0xF4, 0x01, 0, 0] [0xAA, 0xBB, 0xCC]).2.length =
      [0xAA, 0xBB, 0xCC].length :=
  ⟨by decide, by decide,
    (encode_into_reports_written [0xE8, 0x03, 0x18, 0xFC, 0xF4, 0x01, 0, 0] [0xAA, 0xBB, 0xCC]
      (by decide) (by decide)).1,
    (encode_into_reports_written [0xE8, 0x03, 0x18, 0xFC, 0xF4, 0x01, 0, 0] [0xAA, 0xBB, 0xCC]
      (by decide) (by decide)).2.2.2.1⟩

/-- C9: for every packed buffer holding the codes of `nsamples` positions and
every state, `adpcm_decode` returns and stores exactly `nsamples` samples, which
are `2 * nsamples` bytes, in both source instances; and for every ADPCM buffer of
length `L` the allocating decoder runs the engine for `2 * L` samples and
returns their `4 * L` bytes, in both source instances. -/
theorem decode_sizing :
    (∀ (adpcm : List Nat) (nsamples : Nat) (S0 : adpcm_state_t),
      (nsamples + 1) / 2 ≤ adpcm.length →
      ∃ out st, Mpy.adpcm_decode adpcm nsamples S0 = some (out, st) ∧
        out.length = nsamples ∧ (bytes_of_pcm out).length = 2 * nsamples) ∧
    (∀ (adpcm : List Nat) (nsamples : Nat) (S0 : adpcm_state_t),
      (nsamples + 1) / 2 ≤ adpcm.length →
      ∃ out st, Cmod.adpcm_decode adpcm nsamples S0 = some (out, st) ∧
        out.length = nsamples ∧ (bytes_of_pcm out).length = 2 * nsamples) ∧
    (∀ adpcm_buf : List Nat, ∃ samples st,
      Mpy.adpcm_decode adpcm_buf (2 * adpcm_buf.length) { valprev := 0, index := 0 } =
        some (samples, st) ∧
      Mpy.py_adpcm_decode adpcm_buf = some (bytes_of_pcm samples) ∧
      (bytes_of_pcm samples).length = 4 * adpcm_buf.length) ∧
    (∀ adpcm_buf : List Nat, ∃ samples st,
      Cmod.adpcm_decode adpcm_buf (2 * adpcm_buf.length) { valprev := 0, index := 0 } =
        some (samples, st) ∧
      Cmod.mod_adpcm_decode adpcm_buf = some (bytes_of_pcm samples) ∧
      (bytes_of_pcm samples).length = 4 * adpcm_buf.length) := by
  have engine : ∀ (adpcm : List Nat) (nsamples : Nat) (S0 : adpcm_state_t),
      (nsamples + 1) / 2 ≤ adpcm.length →
      ∃ out st, Mpy.adpcm_decode adpcm nsamples S0 = some (out, st) ∧
        out.length = nsamples ∧ (bytes_of_pcm out).length = 2 * nsamples := by
    intro adpcm nsamples S0 hbuf
    obtain ⟨out, st, h, hl⟩ := Mpy.adpcm_decode_some adpcm S0 nsamples hbuf
    exact ⟨out, st, h, hl, by rw [bytes_of_pcm_length, hl]⟩
  have binding : ∀ adpcm_buf : List Nat, ∃ samples st,
      Mpy.adpcm_decode adpcm_buf (2 * adpcm_buf.length) { valprev := 0, index := 0 } =
        some (samples, st) ∧
      Mpy.py_adpcm_decode adpcm_buf = some (bytes_of_pcm samples) ∧
      (bytes_of_pcm samples).length = 4 * adpcm_buf.length := by
    intro adpcm_buf
    obtain ⟨samples, st, hd, hlen, hr⟩ := Mpy.py_adpcm_decode_eq adpcm_buf
    have e2 : adpcm_buf.length * 2 = 2 * adpcm_buf.length := by omega
    rw [e2] at hd hlen
    exact ⟨samples, st, hd, hr, by rw [bytes_of_pcm_length, hlen]; omega⟩
  refine ⟨engine, ?_, binding, ?_⟩
  · intro adpcm nsamples S0 hbuf
    rw [Cmod.adpcm_decode_eq_mpy]
    exact engine adpcm nsamples S0 hbuf
  · intro adpcm_buf
    rw [Cmod.adpcm_decode_eq_mpy, Cmod.mod_adpcm_decode_eq_mpy]
    exact binding adpcm_buf

/-- C9 at the packed bytes `[0x7F, 0xF7]`, three samples and the state `{0, 0}`. -/
theorem decode_sizing_witness :
    (3 + 1) / 2 ≤ [127, 247].length ∧
    (∃ out st, Mpy.adpcm_decode [127, 247] 3 { valprev := 0, index := 0 } = some (out, st) ∧
      out.length = 3 ∧ (bytes_of_pcm out).length = 2 * 3) ∧
    (∃ out st, Cmod.adpcm_decode [127, 247] 3 { valprev := 0, index := 0 } = some (out, st) ∧
      out.length = 3 ∧ (bytes_of_pcm out).length = 2 * 3) :=
  ⟨by decide,
    decode_sizing.1 [127, 247] 3 { valprev := 0, index := 0 } (by decide),
    decode_sizing.2.1 [127, 247] 3 { valprev := 0, index := 0 } (by decide)⟩

/-- C10 fails on three samples: for `[1000, -1000, 500]` from the state `{0, 0}`
the encoder chooses the codes `7, 15, 7`, but its output is the single byte
`0x7F` of the first two codes; there is no output byte at index `3 / 2 = 1`, so
the code `7` of the last sample is in no output byte, in both source instances. -/
theorem final_odd_sample_not_emitted :
    Mpy.encode_codes [1000, -1000, 500] { valprev := 0, index := 0 } = [7, 15, 7] ∧
    (Mpy.adpcm_encode [1000, -1000, 500] { valprev := 0, index := 0 }).1 = [0x7F] ∧
    (Mpy.adpcm_encode [1000, -1000, 500] { valprev := 0, index := 0 }).1[3 / 2]? = none ∧
    Cmod.encode_codes [1000, -1000, 500] { valprev := 0, index := 0 } = [7, 15, 7] ∧
    (Cmod.adpcm_encode [1000, -1000, 500] { valprev := 0, index := 0 }).1 = [0x7F] ∧
    (Cmod.adpcm_encode [1000, -1000, 500] { valprev := 0, index := 0 }).1[3 / 2]? = none := by
  decide

/-! ## Chunked encoding -/

theorem pack_pairs_append : ∀ (n : Nat) (as bs : List Nat), as.length ≤ n →
    as.length % 2 = 0 → pack_pairs (as ++ bs) = pack_pairs as ++ pack_pairs bs := by
  intro n
  induction n using Nat.strong_induction_on with
  | _ n ih =>
    intro as bs hn heven
    match as, hn, heven with
    | [], _, _ => simp [pack_pairs]
    | [a], _, heven => simp at heven
    | a :: b :: rest, hn, heven =>
      simp only [List.length_cons] at hn heven
      have := ih (n - 2) (by omega) rest bs (by omega) (by omega)
      rw [List.cons_append, List.cons_append, pack_pairs, pack_pairs, this, List.cons_append]

namespace Mpy

theorem enc_loop_append (X Y : List Int) : ∀ L : enc_locals,
    enc_loop (X ++ Y) L = enc_loop Y (enc_loop X L) := by
  induction X with
  | nil => intro L; rfl
  | cons s rest ih => intro L; rw [List.cons_append, enc_loop, enc_loop, ih]

theorem enc_codes_append (X Y : List Int) : ∀ L : enc_locals,
    enc_codes (X ++ Y) L = enc_codes X L ++ enc_codes Y (enc_loop X L) := by
  induction X with
  | nil => intro L; rfl
  | cons s rest ih =>
    intro L
    rw [List.cons_append, enc_codes, enc_codes, enc_loop, ih, List.cons_append]

/-- The code chosen and the new `valprev`, `index`, `step` depend on the locals
`valprev`, `index`, `step` only. -/
theorem enc_body_congr (L M : enc_locals) (s : Int)
    (hv : L.valprev = M.valprev) (hi : L.index = M.index) (hs : L.step = M.step) :
    (enc_body L s).valprev = (enc_body M s).valprev ∧
    (enc_body L s).index = (enc_body M s).index ∧
    (enc_body L s).step = (enc_body M s).step := by
  obtain ⟨a1, a2, a3⟩ := enc_body_fields L s
  obtain ⟨b1, b2, b3⟩ := enc_body_fields M s
  rw [a3, b3, a1, a2, b1, b2, hv, hi, hs]
  exact ⟨rfl, rfl, rfl⟩

theorem enc_loop_congr (pcm : List Int) : ∀ (L M : enc_locals),
    L.valprev = M.valprev → L.index = M.index → L.step = M.step →
    enc_codes pcm L = enc_codes pcm M ∧
    (enc_loop pcm L).valprev = (enc_loop pcm M).valprev ∧
    (enc_loop pcm L).index = (enc_loop pcm M).index := by
  induction pcm with
  | nil => intro L M hv hi _; exact ⟨rfl, hv, hi⟩
  | cons s rest ih =>
    intro L M hv hi hs
    obtain ⟨c1, c2, c3⟩ := enc_body_congr L M s hv hi hs
    obtain ⟨d1, d2, d3⟩ := ih (enc_body L s) (enc_body M s) c1 c2 c3
    simp only [enc_codes, enc_loop]
    rw [d1, hv, hs]
    exact ⟨rfl, d2, d3⟩

/-- The local `step` is `step_table[index]` throughout the loop. -/
theorem enc_loop_step (pcm : List Int) : ∀ L : enc_locals, L.step = step_at L.index →
    (enc_loop pcm L).step = step_at (enc_loop pcm L).index := by
  induction pcm with
  | nil => intro L h; exact h
  | cons s rest ih => intro L _; exact ih _ (enc_body_fields L s).2.2

/-- Encoding `X ++ Y` is encoding `X`, then `Y` from the state returned for `X`,
when `X` has an even number of samples. -/
theorem adpcm_encode_append (X Y : List Int) (S0 : adpcm_state_t)
    (heven : X.length % 2 = 0) :
    adpcm_encode (X ++ Y) S0 =
      ((adpcm_encode X S0).1 ++ (adpcm_encode Y (adpcm_encode X S0).2).1,
        (adpcm_encode Y (adpcm_encode X S0).2).2) := by
  have hstep := enc_loop_step X (enc_init S0) rfl
  obtain ⟨hc, hv, hi⟩ := enc_loop_congr Y (enc_loop X (enc_init S0))
    (enc_init (adpcm_encode X S0).2) rfl rfl hstep
  have hbytes : (adpcm_encode (X ++ Y) S0).1 =
      (adpcm_encode X S0).1 ++ (adpcm_encode Y (adpcm_encode X S0).2).1 := by
    rw [adpcm_encode_bytes, adpcm_encode_bytes, adpcm_encode_bytes]
    unfold encode_codes
    rw [enc_codes_append, hc,
      pack_pairs_append _ _ _ (le_refl _) (by rw [enc_codes_length]; exact heven)]
  have hstate : (adpcm_encode (X ++ Y) S0).2 = (adpcm_encode Y (adpcm_encode X S0).2).2 := by
    show ({ valprev := (enc_loop (X ++ Y) (enc_init S0)).valprev,
            index := (enc_loop (X ++ Y) (enc_init S0)).index } : adpcm_state_t) =
      { valprev := (enc_loop Y (enc_init (adpcm_encode X S0).2)).valprev,
        index := (enc_loop Y (enc_init (adpcm_encode X S0).2)).index }
    rw [enc_loop_append, hv, hi]
  exact Prod.ext hbytes hstate

end Mpy

/-- C11: for every valid initial state `S0`, every sample sequence `X` of even
length and every sample sequence `Y`, `adpcm_encode (X ++ Y) S0` returns the
bytes of `adpcm_encode X S0` followed by the bytes of `adpcm_encode Y S1`, and
the state returned by `adpcm_encode Y S1`, where `S1` is the state returned by
`adpcm_encode X S0`. -/
theorem chunked_encode (X Y : List Int) (S0 : adpcm_state_t)
    (_hS : valid_state S0) (heven : X.length % 2 = 0) :
    Cmod.adpcm_encode (X ++ Y) S0 =
      ((Cmod.adpcm_encode X S0).1 ++ (Cmod.adpcm_encode Y (Cmod.adpcm_encode X S0).2).1,
        (Cmod.adpcm_encode Y (Cmod.adpcm_encode X S0).2).2) := by
  simp only [Cmod.adpcm_encode_eq_mpy]
  exact Mpy.adpcm_encode_append X Y S0 heven

/-- C11 at `X = [1000, -1000]`, `Y = [500, 0, 7]` and the state `{0, 0}`. -/
theorem chunked_encode_witness :
    valid_state { valprev := 0, index := 0 } ∧ [(1000 : Int), -1000].length % 2 = 0 ∧
    Cmod.adpcm_encode ([1000, -1000] ++ [500, 0, 7]) { valprev := 0, index := 0 } =
      ((Cmod.adpcm_encode [1000, -1000] { valprev := 0, index := 0 }).1 ++
        (Cmod.adpcm_encode [500, 0, 7]
          (Cmod.adpcm_encode [1000, -1000] { valprev := 0, index := 0 }).2).1,
        (Cmod.adpcm_encode [500, 0, 7]
          (Cmod.adpcm_encode [1000, -1000] { valprev := 0, index := 0 }).2).2) :=
  ⟨by decide, by decide,
    chunked_encode [1000, -1000] [500, 0, 7] { valprev := 0, index := 0 }
      (by decide) (by decide)⟩

/-! ## Array reads of the decoder -/

namespace Mpy

theorem step_read_eq (index : Int) (h0 : 0 ≤ index) (h1 : index ≤ 88) :
    step_read index = some (step_at index) := by
  have hlen : index.toNat < step_table.length := by
    have : step_table.length = 89 := rfl
    omega
  unfold step_read step_at
  rw [if_pos h0, if_pos h0, List.getD_eq_getElem?_getD, List.getElem?_eq_getElem hlen]
  rfl

theorem index_read_eq (k : Nat) (hk : k < 16) : index_read k = some (index_adj k) := by
  have hlen : k < index_table.length := hk
  unfold index_read index_adj
  rw [List.getD_eq_getElem?_getD, List.getElem?_eq_getElem hlen]
  rfl

/-- The index used for `index_table` in the decoder is a 4-bit value, whatever
the byte read. -/
theorem dec_table_index_lt (delta0 : Nat) : (delta0 &&& 7) ||| (delta0 &&& 8) < 16 := by
  have h7 : delta0 &&& 7 < 2 ^ 4 := Nat.lt_of_le_of_lt Nat.and_le_right (by decide)
  have h8 : delta0 &&& 8 < 2 ^ 4 := Nat.lt_of_le_of_lt Nat.and_le_right (by decide)
  exact Nat.or_lt_two_pow h7 h8

/-- Every read of an iteration of the decoder loop is in range as soon as the
byte read is: the checked iteration is the iteration. -/
theorem dec_body_checked_eq (B : List Nat) (i : Nat) (L : dec_locals) :
    dec_body_checked B i L = dec_body B i L := by
  unfold dec_body_checked dec_body dec_nibble
  cases B[i >>> 1]? with
  | none => rfl
  | some packed =>
    simp only []
    rw [index_read_eq _ (dec_table_index_lt _)]
    simp only []
    rw [step_read_eq _ (clamp_index_range _).1 (clamp_index_range _).2]
    rfl

theorem dec_loop_checked_eq (B : List Nat) : ∀ (n i : Nat) (L : dec_locals),
    dec_loop_checked B n i L = dec_loop B n i L := by
  intro n
  induction n with
  | zero => intro i L; rfl
  | succ n ih =>
    intro i L
    rw [dec_loop_checked, dec_loop, dec_body_checked_eq]
    cases dec_body B i L with
    | none => rfl
    | some L1 => exact ih (i + 1) L1

theorem adpcm_decode_checked_eq (B : List Nat) (n : Nat) (S0 : adpcm_state_t)
    (h0 : 0 ≤ S0.index) (h1 : S0.index ≤ 88) :
    adpcm_decode_checked B n S0 = adpcm_decode B n S0 := by
  unfold adpcm_decode_checked adpcm_decode
  rw [step_read_eq _ h0 h1]
  simp only []
  rw [dec_loop_checked_eq]
  rfl

end Mpy

/-- C12: for every initial state whose `index` is in `[0, 88]`, every packed
byte sequence `B` and every `nsamples ≤ 2 * |B|`, every read of `adpcm_decode`
is in range: the byte index `i / 2` is below `|B|` for every position
`i < nsamples`, the `index_table` index is below 16 for every byte value, the
clamped `index` used for `step_table` is in `[0, 88]`, and the decoder with
every array read checked returns, with the result of `adpcm_decode`; so does
the run of the allocating decoder, for `2 * |B|` samples from `{0, 0}`. -/
theorem decode_no_failure (B : List Nat) (nsamples : Nat) (S0 : adpcm_state_t)
    (hS : 0 ≤ S0.index ∧ S0.index ≤ 88) (hn : nsamples ≤ 2 * B.length) :
    (∀ i, i < nsamples → i / 2 < B.length) ∧
    (∀ delta0 : Nat, (delta0 &&& 7) ||| (delta0 &&& 8) < 16) ∧
    (∀ index : Int, 0 ≤ Mpy.clamp_index index ∧ Mpy.clamp_index index ≤ 88) ∧
    (∃ out st, Mpy.adpcm_decode_checked B nsamples S0 = some (out, st) ∧
      Mpy.adpcm_decode B nsamples S0 = some (out, st)) ∧
    (∃ out st,
      Mpy.adpcm_decode_checked B (B.length * 2) { valprev := 0, index := 0 } =
        some (out, st) ∧
      Mpy.py_adpcm_decode B = some (bytes_of_pcm out)) := by
  refine ⟨fun i hi => by omega, Mpy.dec_table_index_lt, Mpy.clamp_index_range, ?_, ?_⟩
  · obtain ⟨out, st, h, _⟩ := Mpy.adpcm_decode_some B S0 nsamples (by omega)
    exact ⟨out, st, by rw [Mpy.adpcm_decode_checked_eq B nsamples S0 hS.1 hS.2]; exact h, h⟩
  · obtain ⟨samples, st, hd, _, hr⟩ := Mpy.py_adpcm_decode_eq B
    refine ⟨samples, st, ?_, hr⟩
    rw [Mpy.adpcm_decode_checked_eq B _ _ (by decide) (by decide)]
    exact hd

/-- C12 at the packed bytes `[0x7F, 0xF7]`, four samples and the state `{0, 88}`. -/
theorem decode_no_failure_witness :
    ((0 : Int) ≤ (88 : Int) ∧ (88 : Int) ≤ 88) ∧ 4 ≤ 2 * [127, 247].length ∧
    ∃ out st, Mpy.adpcm_decode_checked [127, 247] 4 { valprev := 0, index := 88 } =
        some (out, st) ∧
      Mpy.adpcm_decode [127, 247] 4 { valprev := 0, index := 88 } = some (out, st) :=
  ⟨by decide, by decide,
    (decode_no_failure [127, 247] 4 { valprev := 0, index := 88 }
      (by decide) (by decide)).2.2.2.1⟩

/-! ## The quantiser -/

/-- On a non-negative `int` the shifts `>> 1`, `>> 2`, `>> 3` are the divisions
by 2, 4 and 8. -/
theorem shr_eq_div (m : Int) (hm : 0 ≤ m) :
    m >>> 1 = m / 2 ∧ m >>> 2 = m / 4 ∧ m >>> 3 = m / 8 := by
  obtain ⟨n, rfl⟩ := Int.eq_ofNat_of_zero_le hm
  have h : ∀ k : Nat, (n : Int) >>> (k : Int) = ((n / 2 ^ k : Nat) : Int) := by
    intro k
    rw [Int.shiftRight_coe_nat, Nat.shiftRight_eq_div_pow]
  refine ⟨?_, ?_, ?_⟩
  · have := h 1; simpa using this
  · have := h 2; simpa using this
  · have := h 3; simpa using this

namespace Mpy

theorem step_table_range : ∀ n, n < 89 →
    7 ≤ step_table.getD n 0 ∧ step_table.getD n 0 ≤ 32767 := by
  decide

theorem step_at_range (index : Int) (h0 : 0 ≤ index) (h1 : index ≤ 88) :
    7 ≤ step_at index ∧ step_at index ≤ 32767 := by
  unfold step_at
  rw [if_pos h0]
  exact step_table_range index.toNat (by omega)

/-- Without the clamp: when the difference is below two steps, the reconstructed
value is within half a step of the sample. -/
theorem quantiser_error (v st s : Int) (h7 : 7 ≤ st)
    (hlo : -(2 * st) < s - v) (hhi : s - v < 2 * st) :
    -(st / 2) ≤ s - (if s - v < 0 then v - vpdiff_of st (enc_delta v st s)
        else v + vpdiff_of st (enc_delta v st s)) ∧
    s - (if s - v < 0 then v - vpdiff_of st (enc_delta v st s)
        else v + vpdiff_of st (enc_delta v st s)) ≤ st / 2 := by
  obtain ⟨e1, e2, e3⟩ := shr_eq_div st (by omega)
  obtain ⟨f1, -, -⟩ := shr_eq_div (st / 2) (by omega)
  unfold enc_delta
  simp only [e1, f1]
  split_ifs <;> simp +decide only [vpdiff_of, e1, e2, e3, if_true, if_false] <;> omega

/-- The clamp moves the reconstructed value towards every 16-bit sample. -/
theorem clamp16_error (s p b : Int) (hs : is_int16 s) (h0 : 0 ≤ b)
    (hlo : -b ≤ s - p) (hhi : s - p ≤ b) :
    -b ≤ s - clamp16 p ∧ s - clamp16 p ≤ b := by
  unfold is_int16 at hs
  unfold clamp16
  split_ifs <;> omega

theorem encode_one_valprev (S : adpcm_state_t) (s : Int) :
    (adpcm_encode [s] S).2.valprev =
      clamp16 (if s - S.valprev < 0
        then S.valprev - vpdiff_of (step_at S.index) (enc_delta S.valprev (step_at S.index) s)
        else S.valprev + vpdiff_of (step_at S.index) (enc_delta S.valprev (step_at S.index) s)) :=
  (enc_body_fields (enc_init S) s).1

theorem encode_one_index (S : adpcm_state_t) (s : Int) :
    (adpcm_encode [s] S).2.index =
      clamp_index (S.index +
        index_adj (enc_delta S.valprev (step_at S.index) s &&& 0x0F)) :=
  (enc_body_fields (enc_init S) s).2.1

/-- A difference of at least one step sets bit 4 of the code. -/
theorem enc_delta_large (v st s : Int) (h : st ≤ |s - v|) :
    ∃ m, 4 ≤ m ∧ m < 8 ∧ enc_delta v st s = m ||| (if s - v < 0 then 8 else 0) := by
  rcases le_abs.mp h with h1 | h1
  · unfold enc_delta
    simp only []
    split_ifs <;> first | exact ⟨_, by decide, by decide, rfl⟩ | omega
  · unfold enc_delta
    simp only []
    split_ifs <;> first | exact ⟨_, by decide, by decide, rfl⟩ | omega

theorem index_adj_large (m : Nat) (h4 : 4 ≤ m) (h8 : m < 8) :
    2 ≤ index_adj ((m ||| 8) &&& 0x0F) ∧ 2 ≤ index_adj ((m ||| 0) &&& 0x0F) := by
  interval_cases m <;> decide

end Mpy

/-! ## Scenarios, synchronisation and the tables -/

namespace Mpy

theorem dec_apply_silence (p : List Int) :
    dec_apply { valprev := 0, index := 0, step := 7, pcm := p } 0 =
      { valprev := 0, index := 0, step := 7, pcm := p ++ [0] } := by
  rfl

theorem foldl_dec_apply_silence (m : Nat) : ∀ p : List Int,
    (List.replicate m 0).foldl dec_apply { valprev := 0, index := 0, step := 7, pcm := p } =
      { valprev := 0, index := 0, step := 7, pcm := p ++ List.replicate m 0 } := by
  induction m with
  | zero => intro p; simp
  | succ m ih =>
    intro p
    rw [List.replicate_succ, List.foldl_cons, dec_apply_silence, ih]
    simp [List.replicate_succ]

theorem dec_nibble_silence (n j : Nat) (hj : j < 2 * n) :
    dec_nibble (List.replicate n 0) j = some 0 := by
  have hsh : j >>> 1 = j / 2 := by simp [Nat.shiftRight_eq_div_pow]
  have hlt : j / 2 < (List.replicate n 0).length := by simp; omega
  unfold dec_nibble
  rw [hsh, List.getElem?_eq_getElem hlt]
  simp

theorem adpcm_decode_silence (n : Nat) :
    adpcm_decode (List.replicate n 0) (2 * n) { valprev := 0, index := 0 } =
      some (List.replicate (2 * n) 0, { valprev := 0, index := 0 }) := by
  have hread : ∀ j, j < (List.replicate (2 * n) 0).length →
      dec_nibble (List.replicate n 0) (0 + j) = (List.replicate (2 * n) 0)[j]? := by
    intro j hj
    rw [List.length_replicate] at hj
    rw [Nat.zero_add, dec_nibble_silence n j hj, List.getElem?_replicate]
    simp [hj]
  have hloop := dec_loop_codes (List.replicate n 0) (List.replicate (2 * n) 0) 0
    (dec_init { valprev := 0, index := 0 }) hread
  rw [List.length_replicate] at hloop
  have hinit : dec_init { valprev := 0, index := 0 } =
      { valprev := 0, index := 0, step := 7, pcm := [] } := rfl
  unfold adpcm_decode
  rw [hloop, hinit, foldl_dec_apply_silence]
  simp

/-- The value of `valprev` recorded for sample `i` is the `valprev` returned by
the encoder for the first `i + 1` samples. -/
theorem enc_trace_get (pcm : List Int) : ∀ (L : enc_locals) (i : Nat), i < pcm.length →
    (enc_trace pcm L)[i]? = some (enc_loop (pcm.take (i + 1)) L).valprev := by
  induction pcm with
  | nil => intro L i hi; simp at hi
  | cons s rest ih =>
    intro L i hi
    cases i with
    | zero => simp [enc_trace, enc_loop]
    | succ i =>
      simp only [List.length_cons] at hi
      rw [enc_trace, List.getElem?_cons_succ, List.take_succ_cons, enc_loop]
      exact ih (enc_body L s) i (by omega)

end Mpy

/-- C13, as stated, fails: for the four samples `[0, 0, 0, 0]` from the state
`{0, 0}` the encoder stores two bytes, not the single byte `0x00`. -/
theorem scenario_encode_silence_counterexample :
    (Cmod.adpcm_encode [0, 0, 0, 0] { valprev := 0, index := 0 }).1 ≠ [0x00] ∧
    (Cmod.adpcm_encode [0, 0, 0, 0] { valprev := 0, index := 0 }).1.length = 2 := by
  decide

/-- C13, amended: `adpcm_encode` applied to the four samples `[0, 0, 0, 0]` with
initial state `{0, 0}` chooses the code `0x0` for every sample and produces the
output byte sequence `[0x00, 0x00]`, one byte per pair of samples, and returns
the state `{0, 0}`. -/
theorem scenario_encode_silence :
    Cmod.encode_codes [0, 0, 0, 0] { valprev := 0, index := 0 } = [0, 0, 0, 0] ∧
    Cmod.adpcm_encode [0, 0, 0, 0] { valprev := 0, index := 0 } =
      ([0x00, 0x00], { valprev := 0, index := 0 }) := by
  decide

/-- C14: for every `n`, `adpcm_decode` applied to `n` bytes `0x00` with
`nsamples = 2 * n` and initial state `{0, 0}` returns `2 * n` samples that are
all 0 and the state `{0, 0}`. -/
theorem decode_silence (n : Nat) :
    Cmod.adpcm_decode (List.replicate n 0x00) (2 * n) { valprev := 0, index := 0 } =
      some (List.replicate (2 * n) 0, { valprev := 0, index := 0 }) := by
  rw [Cmod.adpcm_decode_eq_mpy]
  exact Mpy.adpcm_decode_silence n

/-- C15: from every valid state with `index < 88`, one step of `adpcm_encode` on
a sample `s` with `|s - valprev| ≥ step_table[index]` strictly increases
`index`; and `adpcm_encode` of `[32767, -32768]` from `{0, 0}` ends with
`index > 0` and `valprev` in `[-32768, 32767]`. -/
theorem large_difference_widens_step (S : adpcm_state_t) (s : Int)
    (hS : valid_state S) (h88 : S.index < 88)
    (hd : Cmod.step_at S.index ≤ |s - S.valprev|) :
    S.index < (Cmod.adpcm_encode [s] S).2.index ∧
    0 < (Cmod.adpcm_encode [32767, -32768] { valprev := 0, index := 0 }).2.index ∧
    is_int16 (Cmod.adpcm_encode [32767, -32768] { valprev := 0, index := 0 }).2.valprev := by
  refine ⟨?_, by decide, by decide⟩
  have hd2 : Mpy.step_at S.index ≤ |s - S.valprev| := hd
  obtain ⟨m, h4, h8, hm⟩ := Mpy.enc_delta_large S.valprev (Mpy.step_at S.index) s hd2
  obtain ⟨a8, a0⟩ := Mpy.index_adj_large m h4 h8
  rw [Cmod.adpcm_encode_eq_mpy, Mpy.encode_one_index, hm]
  have h0 : 0 ≤ S.index := hS.2.1
  unfold Mpy.clamp_index
  split_ifs <;> omega

/-- C15 at the state `{0, 0}` and the sample `32767`. -/
theorem large_difference_widens_step_witness :
    valid_state { valprev := 0, index := 0 } ∧ (0 : Int) < 88 ∧
    Cmod.step_at 0 ≤ |(32767 : Int) - 0| ∧
    (0 : Int) < (Cmod.adpcm_encode [32767] { valprev := 0, index := 0 }).2.index :=
  ⟨by decide, by decide, by decide,
    (large_difference_widens_step { valprev := 0, index := 0 } 32767
      (by decide) (by decide) (by decide)).1⟩

/-- C16: for every valid initial state `S0` and every sample sequence `X` of
even length `N`, `adpcm_decode` run on the bytes of `adpcm_encode X S0` for `N`
samples from `S0` returns the final state of `adpcm_encode X S0`, and its
`i`-th output sample, for every `i < N`, is the `valprev` the encoder has after
the samples `0 .. i`. -/
theorem encoder_decoder_synchronised (X : List Int) (S0 : adpcm_state_t)
    (_hS : valid_state S0) (heven : X.length % 2 = 0) :
    ∃ out, Mpy.adpcm_decode (Mpy.adpcm_encode X S0).1 X.length S0 =
        some (out, (Mpy.adpcm_encode X S0).2) ∧
      out.length = X.length ∧
      ∀ i, i < X.length →
        out[i]? = some (Mpy.adpcm_encode (X.take (i + 1)) S0).2.valprev := by
  refine ⟨Mpy.encode_trace X S0, Mpy.decode_encode_sync X S0 heven,
    Mpy.enc_trace_length _ _, ?_⟩
  intro i hi
  exact Mpy.enc_trace_get X (Mpy.enc_init S0) i hi

/-- C16 at the samples `[1000, -1000, 500, 0]` and the state `{0, 0}`. -/
theorem encoder_decoder_synchronised_witness :
    valid_state { valprev := 0, index := 0 } ∧
    [(1000 : Int), -1000, 500, 0].length % 2 = 0 ∧
    ∃ out, Mpy.adpcm_decode
        (Mpy.adpcm_encode [1000, -1000, 500, 0] { valprev := 0, index := 0 }).1
        [(1000 : Int), -1000, 500, 0].length { valprev := 0, index := 0 } =
        some (out, (Mpy.adpcm_encode [1000, -1000, 500, 0] { valprev := 0, index := 0 }).2) ∧
      out.length = [(1000 : Int), -1000, 500, 0].length ∧
      ∀ i, i < [(1000 : Int), -1000, 500, 0].length →
        out[i]? = some (Mpy.adpcm_encode ([(1000 : Int), -1000, 500, 0].take (i + 1))
          { valprev := 0, index := 0 }).2.valprev :=
  ⟨by decide, by decide,
    encoder_decoder_synchronised [1000, -1000, 500, 0] { valprev := 0, index := 0 }
      (by decide) (by decide)⟩

/-- C17: for every valid state `S` and every signed 16-bit sample `s` with
`|s - valprev| < 2 * step_table[index]`, the `valprev` after one step of
`adpcm_encode` on `s` is within `step_table[index] / 2` (integer division) of
`s`, clamped or not, in both source instances. -/
theorem quantisation_error_bound (S : adpcm_state_t) (s : Int)
    (hS : valid_state S) (hs : is_int16 s)
    (hd : |s - S.valprev| < 2 * Mpy.step_at S.index) :
    |s - (Mpy.adpcm_encode [s] S).2.valprev| ≤ Mpy.step_at S.index / 2 ∧
    |s - (Cmod.adpcm_encode [s] S).2.valprev| ≤ Cmod.step_at S.index / 2 := by
  obtain ⟨h7, _⟩ := Mpy.step_at_range S.index hS.2.1 hS.2.2
  obtain ⟨hlo, hhi⟩ := abs_lt.mp hd
  obtain ⟨q1, q2⟩ := Mpy.quantiser_error S.valprev (Mpy.step_at S.index) s h7 hlo hhi
  obtain ⟨c1, c2⟩ := Mpy.clamp16_error s _ (Mpy.step_at S.index / 2) hs (by omega) q1 q2
  have main : |s - (Mpy.adpcm_encode [s] S).2.valprev| ≤ Mpy.step_at S.index / 2 := by
    rw [Mpy.encode_one_valprev]
    exact abs_le.mpr ⟨c1, c2⟩
  refine ⟨main, ?_⟩
  rw [Cmod.adpcm_encode_eq_mpy]
  exact main

/-- C17 at the state `{32760, 40}` and the sample `32767`, where the new
`valprev` is clamped. -/
theorem quantisation_error_bound_witness :
    valid_state { valprev := 32760, index := 40 } ∧ is_int16 32767 ∧
    |(32767 : Int) - 32760| < 2 * Mpy.step_at 40 ∧
    |(32767 : Int) - (Mpy.adpcm_encode [32767] { valprev := 32760, index := 40 }).2.valprev| ≤
      Mpy.step_at 40 / 2 :=
  ⟨by decide, by decide, by decide,
    (quantisation_error_bound { valprev := 32760, index := 40 } 32767
      (by decide) (by decide) (by decide)).1⟩

/-- C18: for every sample sequence and every initial state the two
`adpcm_encode` functions store the same bytes and return the same state, and
for every packed input, sample count and initial state the two `adpcm_decode`
functions return the same samples and the same state (or both read past the
packed input). -/
theorem source_instances_agree :
    (∀ (pcm : List Int) (S0 : adpcm_state_t),
      Cmod.adpcm_encode pcm S0 = Mpy.adpcm_encode pcm S0) ∧
    (∀ (adpcm : List Nat) (nsamples : Nat) (S0 : adpcm_state_t),
      Cmod.adpcm_decode adpcm nsamples S0 = Mpy.adpcm_decode adpcm nsamples S0) :=
  ⟨Cmod.adpcm_encode_eq_mpy, Cmod.adpcm_decode_eq_mpy⟩

/-- C19: `step_table` has 89 entries, every entry is positive, each entry is
smaller than the next, entry 0 is 7 and entry 88 is 32767, and the tables of the
two source instances are the same. -/
theorem step_table_shape :
    Mpy.step_table.length = 89 ∧
    (∀ v ∈ Mpy.step_table, 0 < v) ∧
    (∀ i, i < 88 → Mpy.step_table.getD i 0 < Mpy.step_table.getD (i + 1) 0) ∧
    Mpy.step_table[0]? = some 7 ∧ Mpy.step_table[88]? = some 32767 ∧
    Cmod.step_table = Mpy.step_table := by
  decide

end Adpcm
